import Mathlib

/-!
# Verification of the Quine-McCluskey / Petrick / CNF-DNF core

Shallow embedding of the Rust sources of the `quine-mccluskey-petrick-agent`
repository (modules `cnf_dnf/convert.rs`, `cnf_dnf/simd.rs`, `qm/classic.rs`,
`qm/minterm_set.rs`, `qm/encoding.rs`, `qm/implicant.rs`), together with proofs
and refutations of the specified properties.

Machine integers (`u32`/`u64`/`u128`) are embedded as `Nat`; the only
operations the embedded code performs are `|`, `^`, `&`, shifts, comparisons
and popcount, and every place where a Rust operation can wrap (a left shift or
a narrowing `as` cast) is made explicit with `% 2^w`.
-/

namespace QmPetrick

/-- Population count, fuel-structured so that it reduces in the kernel.
The fuel is an upper bound on the argument; `popCount` instantiates it. -/
def popCountAux : Nat → Nat → Nat
  | 0, _ => 0
  | fuel + 1, n => if n = 0 then 0 else n % 2 + popCountAux fuel (n / 2)

/-- Population count of a natural number (`count_ones` on the value's bits). -/
def popCount (n : Nat) : Nat :=
  popCountAux n n

theorem popCountAux_congr :
    ∀ f₁ f₂ n, n ≤ f₁ → n ≤ f₂ → popCountAux f₁ n = popCountAux f₂ n := by
  intro f₁
  induction f₁ with
  | zero =>
    intro f₂ n h1 _
    have : n = 0 := by omega
    subst this
    cases f₂ <;> simp [popCountAux]
  | succ f ih =>
    intro f₂ n h1 h2
    by_cases h0 : n = 0
    · subst h0; cases f₂ <;> simp [popCountAux]
    · obtain ⟨g, rfl⟩ : ∃ g, f₂ = g + 1 := ⟨f₂ - 1, by omega⟩
      have hd : n / 2 < n := Nat.div_lt_self (by omega) (by omega)
      simp only [popCountAux, h0, if_false]
      rw [ih g (n / 2) (by omega) (by omega)]

theorem popCount_zero : popCount 0 = 0 := rfl

theorem popCount_eq (n : Nat) :
    popCount n = if n = 0 then 0 else n % 2 + popCount (n / 2) := by
  by_cases h0 : n = 0
  · simp [h0, popCount_zero]
  · obtain ⟨m, rfl⟩ : ∃ m, n = m + 1 := ⟨n - 1, by omega⟩
    simp only [popCount, popCountAux, h0, if_false]
    rw [popCountAux_congr m ((m + 1) / 2) ((m + 1) / 2) (by omega) (by omega)]

theorem lor_div_two (a b : Nat) : (a ||| b) / 2 = a / 2 ||| b / 2 := by
  apply Nat.eq_of_testBit_eq
  intro i
  simp [Nat.testBit_div_two, Nat.testBit_or]

theorem testBit_zero_iff (n : Nat) : n.testBit 0 = decide (n % 2 = 1) :=
  Nat.testBit_zero n

theorem mod_two_of_testBit (n : Nat) :
    n % 2 = if n.testBit 0 then 1 else 0 := by
  rw [testBit_zero_iff]
  rcases Nat.mod_two_eq_zero_or_one n with h | h <;> simp [h]

theorem popCount_or_le (a : Nat) :
    ∀ b, popCount (a ||| b) ≤ popCount a + popCount b := by
  induction a using Nat.strong_induction_on with
  | _ a ih =>
    intro b
    by_cases ha : a = 0
    · subst ha; simp [Nat.zero_or, popCount_zero]
    · by_cases hb : b = 0
      · subst hb; simp [Nat.or_zero, popCount_zero]
      · have hab : a ||| b ≠ 0 := by
          intro h
          apply ha
          apply Nat.eq_of_testBit_eq
          intro i
          have := congrArg (fun x => Nat.testBit x i) h
          simp only [Nat.testBit_or, Nat.zero_testBit] at this ⊢
          exact (Bool.or_eq_false_iff.mp this).1
        rw [popCount_eq (a ||| b), popCount_eq a, popCount_eq b]
        simp only [hab, ha, hb, if_false]
        rw [lor_div_two]
        have hrec := ih (a / 2) (Nat.div_lt_self (by omega) (by omega)) (b / 2)
        have hm : (a ||| b) % 2 ≤ a % 2 + b % 2 := by
          rw [mod_two_of_testBit (a ||| b), mod_two_of_testBit a,
            mod_two_of_testBit b, Nat.testBit_or]
          cases h1 : a.testBit 0 <;> cases h2 : b.testBit 0 <;> simp
        omega

theorem popCount_le_or_left (a : Nat) :
    ∀ b, popCount a ≤ popCount (a ||| b) := by
  induction a using Nat.strong_induction_on with
  | _ a ih =>
    intro b
    by_cases ha : a = 0
    · subst ha; simp [popCount_zero]
    · have hab : a ||| b ≠ 0 := by
        intro h
        apply ha
        apply Nat.eq_of_testBit_eq
        intro i
        have := congrArg (fun x => Nat.testBit x i) h
        simp only [Nat.testBit_or, Nat.zero_testBit] at this ⊢
        exact (Bool.or_eq_false_iff.mp this).1
      rw [popCount_eq (a ||| b), popCount_eq a]
      simp only [hab, ha, if_false]
      rw [lor_div_two]
      have hrec := ih (a / 2) (Nat.div_lt_self (by omega) (by omega)) (b / 2)
      have hm : a % 2 ≤ (a ||| b) % 2 := by
        rw [mod_two_of_testBit (a ||| b), mod_two_of_testBit a, Nat.testBit_or]
        cases h1 : a.testBit 0 <;> simp
      omega

/-- `q ⊆ z` (as bitsets, i.e. `z ||| q = z`) implies `popCount q ≤ popCount z`. -/
theorem popCount_le_of_or_eq {q z : Nat} (h : z ||| q = z) :
    popCount q ≤ popCount z := by
  have := popCount_le_or_left q z
  rwa [Nat.or_comm, h] at this

theorem popCount_two_pow (k : Nat) : popCount (2 ^ k) = 1 := by
  induction k with
  | zero => rfl
  | succ k ih =>
    rw [popCount_eq]
    have h1 : 2 ^ (k + 1) ≠ 0 := by positivity
    have h2 : 2 ^ (k + 1) % 2 = 0 := by
      simp [Nat.pow_succ, Nat.mul_mod_left]
    have h3 : 2 ^ (k + 1) / 2 = 2 ^ k := by
      rw [Nat.pow_succ]
      omega
    simp [h1, h2, h3, ih]

/-- Any value below `2 ^ w` has popcount at most `w`. -/
theorem popCount_le_of_lt_two_pow : ∀ w n, n < 2 ^ w → popCount n ≤ w := by
  intro w
  induction w with
  | zero =>
    intro n h
    interval_cases n
    simp [popCount_zero]
  | succ w ih =>
    intro n h
    rw [popCount_eq]
    by_cases h0 : n = 0
    · simp [h0]
    · simp only [h0, if_false]
      have hdiv : n / 2 < 2 ^ w := by
        have : n < 2 ^ w * 2 := by
          have := h
          rw [Nat.pow_succ] at this
          omega
        omega
      have := ih (n / 2) hdiv
      have : n % 2 ≤ 1 := by omega
      omega

/-- `test_bit` from `cnf_dnf/convert.rs`: `(val >> pos) & 1 == 1`. -/
def test_bit (data pos : Nat) : Bool :=
  (data >>> pos) &&& 1 == 1

theorem test_bit_eq_testBit (data pos : Nat) :
    test_bit data pos = Nat.testBit data pos := by
  simp [test_bit, Nat.testBit, Nat.shiftRight_eq_div_pow, Nat.land_comm,
    Nat.and_one_is_mod, Nat.one_and_eq_mod_two]

/-! ## The scalar subsumption kernel (`optimized_for_x64`, convert.rs 157-178)

For a candidate `z` and the current antichain `result_dnf_next`, the kernel
scans the list; if some element `q` satisfies `z | q == z` it returns
`(Vec::new(), false)` immediately (skip `z`); otherwise it collects the index
of every `q` with `z | q == q` and returns `(indices, true)` (add `z`). -/

def optX64Go (z : Nat) : List Nat → Nat → List Nat × Bool
  | [], _ => ([], true)
  | q :: rest, i =>
    if z ||| q = z then ([], false)
    else
      let r := optX64Go z rest (i + 1)
      if z ||| q = q then (if r.2 then (i :: r.1, true) else r) else r

def optimized_for_x64 (result_dnf_next : List Nat) (z : Nat) : List Nat × Bool :=
  optX64Go z result_dnf_next 0

/-- Indexed enumeration (Rust's `iter().enumerate()`, with a start offset). -/
def enumIdx (i : Nat) : List Nat → List (Nat × Nat)
  | [] => []
  | v :: tl => (i, v) :: enumIdx (i + 1) tl

/-- The deletion-index list the scalar kernel produces on the add path. -/
def delIdx (z : Nat) (L : List Nat) (i : Nat) : List Nat :=
  ((enumIdx i L).filter (fun p => z ||| p.2 == p.2)).map Prod.fst

theorem delIdx_nil (z i : Nat) : delIdx z [] i = [] := rfl

theorem delIdx_cons (z q : Nat) (tl : List Nat) (i : Nat) :
    delIdx z (q :: tl) i =
      (if z ||| q = q then [i] else []) ++ delIdx z tl (i + 1) := by
  by_cases h : z ||| q = q <;> simp [delIdx, enumIdx, h]

theorem optX64Go_spec (z : Nat) :
    ∀ (L : List Nat) (i : Nat),
      optX64Go z L i =
        if L.any (fun q => z ||| q == z) then ([], false)
        else (delIdx z L i, true) := by
  intro L
  induction L with
  | nil => intro i; simp [optX64Go, delIdx, enumIdx]
  | cons q tl ih =>
    intro i
    by_cases h1 : z ||| q = z
    · simp [optX64Go, h1]
    · by_cases h2 : (tl.any fun q => z ||| q == z) = true
      · simp [optX64Go, h1, ih, h2]
      · simp only [Bool.not_eq_true] at h2
        by_cases h3 : z ||| q = q <;>
          simp [optX64Go, h1, h2, h3, ih, delIdx_cons]

theorem optimized_for_x64_spec (L : List Nat) (z : Nat) :
    optimized_for_x64 L z =
      if L.any (fun q => z ||| q == z) then ([], false)
      else (delIdx z L 0, true) :=
  optX64Go_spec z L 0

/-! ## Inserting a candidate into the antichain (convert.rs 252-265)

When the kernel says *add*, the caller filters out the indices to delete
(via a `HashSet<usize>` membership test over `enumerate()`) and pushes `z`. -/

def removeIndices (L : List Nat) (del : List Nat) : List Nat :=
  (((enumIdx 0 L).filter (fun p => !(del.contains p.1))).map Prod.snd)

def insertTerm (L : List Nat) (z : Nat) : List Nat :=
  let r := optimized_for_x64 L z
  if r.2 then removeIndices L r.1 ++ [z] else L

theorem contains_eq_decide_mem (l : List Nat) (a : Nat) :
    l.contains a = decide (a ∈ l) :=
  List.elem_eq_mem a l

theorem mem_enumIdx_fst_ge : ∀ (L : List Nat) (i : Nat) (p : Nat × Nat),
    p ∈ enumIdx i L → i ≤ p.1 := by
  intro L
  induction L with
  | nil => intro i p h; simp [enumIdx] at h
  | cons v tl ih =>
    intro i p h
    simp only [enumIdx, List.mem_cons] at h
    rcases h with h | h
    · simp [h]
    · have := ih (i + 1) p h
      omega

theorem mem_delIdx_ge (z : Nat) (L : List Nat) (i j : Nat) :
    j ∈ delIdx z L i → i ≤ j := by
  intro h
  simp only [delIdx, List.mem_map, List.mem_filter] at h
  obtain ⟨p, ⟨hp, _⟩, hj⟩ := h
  subst hj
  exact mem_enumIdx_fst_ge L i p hp

/-- Removing exactly the indices whose values satisfy `P` is filtering by `¬P`.
This identifies the Rust index-set deletion pass with a value-level filter. -/
theorem removeIndices_delIdx_aux (z : Nat) :
    ∀ (L : List Nat) (i : Nat),
      ((enumIdx i L).filter
        (fun p => !((delIdx z L i).contains p.1))).map Prod.snd =
      L.filter (fun q => !(z ||| q == q)) := by
  intro L
  induction L with
  | nil => intro i; simp [enumIdx, delIdx]
  | cons q tl ih =>
    intro i
    have hde : delIdx z (q :: tl) i =
        (if z ||| q = q then [i] else []) ++ delIdx z tl (i + 1) :=
      delIdx_cons z q tl i
    have hkey : ∀ p ∈ enumIdx (i + 1) tl,
        ((delIdx z (q :: tl) i).contains p.1) = ((delIdx z tl (i + 1)).contains p.1) := by
      intro p hp
      have hge := mem_enumIdx_fst_ge tl (i + 1) p hp
      rw [hde]
      by_cases h3 : z ||| q = q
      · simp only [h3, if_pos, contains_eq_decide_mem, List.mem_append,
          List.mem_singleton, decide_eq_decide]
        constructor
        · rintro (h | h)
          · omega
          · exact h
        · intro h; exact Or.inr h
      · simp [h3]
    have htl :
        ((enumIdx (i + 1) tl).filter
          (fun p => !((delIdx z (q :: tl) i).contains p.1))).map Prod.snd =
        tl.filter (fun v => !(z ||| v == v)) := by
      rw [List.filter_congr (by intro p hp; rw [hkey p hp])]
      exact ih (i + 1)
    have hhead : ((delIdx z (q :: tl) i).contains i) = (z ||| q == q) := by
      rw [hde]
      by_cases h3 : z ||| q = q
      · simp [h3]
      · have : ∀ j ∈ delIdx z tl (i + 1), j ≠ i := by
          intro j hj
          have := mem_delIdx_ge z tl (i + 1) j hj
          omega
        simp only [h3, if_neg, List.nil_append, contains_eq_decide_mem]
        have h4 : (z ||| q == q) = false := by simpa using h3
        rw [h4]
        simp only [decide_eq_false_iff_not]
        intro hmem
        exact (this i hmem) rfl
    by_cases h3 : z ||| q = q
    · have h4 : (z ||| q == q) = true := by simpa using h3
      have hneg : (!(delIdx z (q :: tl) i).contains i) = false := by
        rw [hhead, h4]; rfl
      show List.map Prod.snd
          (List.filter (fun p => !(delIdx z (q :: tl) i).contains p.1)
            ((i, q) :: enumIdx (i + 1) tl)) =
        List.filter (fun v => !(z ||| v == v)) (q :: tl)
      simp only [List.filter_cons, hneg, h4, Bool.not_true, if_false]
      exact htl
    · have h4 : (z ||| q == q) = false := by simpa using h3
      have hpos : (!(delIdx z (q :: tl) i).contains i) = true := by
        rw [hhead, h4]; rfl
      show List.map Prod.snd
          (List.filter (fun p => !(delIdx z (q :: tl) i).contains p.1)
            ((i, q) :: enumIdx (i + 1) tl)) =
        List.filter (fun v => !(z ||| v == v)) (q :: tl)
      simp only [List.filter_cons, hpos, h4, Bool.not_false, if_true,
        List.map_cons]
      exact congrArg (q :: ·) htl

theorem removeIndices_delIdx (z : Nat) (L : List Nat) :
    removeIndices L (delIdx z L 0) = L.filter (fun q => !(z ||| q == q)) :=
  removeIndices_delIdx_aux z L 0

/-- Closed form of the insert step: skip `z` when an element of `L` is a
subset of `z`, otherwise delete every superset of `z` and append `z`. -/
theorem insertTerm_eq (L : List Nat) (z : Nat) :
    insertTerm L z =
      if L.any (fun q => z ||| q == z) then L
      else L.filter (fun q => !(z ||| q == q)) ++ [z] := by
  unfold insertTerm
  rw [optimized_for_x64_spec]
  by_cases h : (L.any fun q => z ||| q == z) = true
  · simp [h]
  · simp only [Bool.not_eq_true] at h
    simp [h, removeIndices_delIdx]

/-! ## CNF → DNF conversion (convert.rs 225-492)

`convert_cnf_to_dnf_impl` seeds the DNF with one singleton term per literal of
the first clause, then distributes each further clause over the current DNF,
maintaining the antichain through `insertTerm`. -/

/-- Terms produced from the first clause: `1 << i` for each set bit `i < n_bits`. -/
def firstClauseTerms (nBits c : Nat) : List Nat :=
  ((List.range nBits).filter (fun i => test_bit c i)).map (fun i => 1 <<< i)

/-- Processing of one non-first clause (the `else` branch of the sweep):
for each literal bit `pos` of the clause and each term `y` of the previous
DNF, the candidate `z = (1 << pos) | y` is offered to the antichain. -/
def clauseStep (nBits : Nat) (D : List Nat) (c : Nat) : List Nat :=
  (List.range nBits).foldl
    (fun Dn pos =>
      if test_bit c pos then
        D.foldl (fun Dn2 y => insertTerm Dn2 ((1 <<< pos) ||| y)) Dn
      else Dn) []

/-- `convert_cnf_to_dnf_impl` (convert.rs 225-275), scalar kernel. -/
def convert_cnf_to_dnf_impl (cnf : List Nat) (nBits : Nat) : List Nat :=
  match cnf with
  | [] => []
  | c :: rest => rest.foldl (fun D disj => clauseStep nBits D disj) (firstClauseTerms nBits c)

/-- `usize::MAX`, the initial value of the minimum-size accumulator. -/
def usizeMax : Nat := 2 ^ 64 - 1

/-- The final minimum-popcount filter of `convert_cnf_to_dnf_minimal`
(convert.rs 405-421): empty input stays empty, otherwise keep exactly the
terms of minimum popcount. -/
def minFilter (result_dnf : List Nat) : List Nat :=
  if result_dnf.isEmpty then result_dnf
  else
    let smallest := result_dnf.foldl
      (fun acc c => if popCount c < acc then popCount c else acc) usizeMax
    result_dnf.filter (fun c => popCount c == smallest)

/-- `i32::MAX`, the initial value of `smallest_cnf_size` in the early-pruning
sweep. -/
def i32Max : Nat := 2 ^ 31 - 1

example : convert_cnf_to_dnf_impl [6, 24] 8 = [10, 12, 18, 20] := by decide
example : minFilter [12, 3, 7] = [12, 3] := by decide

/-! ## Classical semantics of CNF / DNF over bitset clauses and terms -/

/-- A term (conjunction) is satisfied when every variable in its bitset is
assigned `true`. -/
def satTerm (a : Nat → Bool) (t : Nat) : Prop :=
  ∀ i, t.testBit i = true → a i = true

/-- A clause (disjunction) is satisfied when some variable in its bitset is
assigned `true`. -/
def satClause (a : Nat → Bool) (c : Nat) : Prop :=
  ∃ i, c.testBit i = true ∧ a i = true

/-- A CNF is satisfied when every clause is. -/
def satCNF (a : Nat → Bool) (cnf : List Nat) : Prop :=
  ∀ c ∈ cnf, satClause a c

/-- A DNF is satisfied when some term is. -/
def satDNF (a : Nat → Bool) (D : List Nat) : Prop :=
  ∃ t ∈ D, satTerm a t

theorem satTerm_of_subset {a : Nat → Bool} {q z : Nat} (h : q ||| z = z) :
    satTerm a z → satTerm a q := by
  intro hz i hi
  apply hz
  have := congrArg (fun x => Nat.testBit x i) h
  simp only [Nat.testBit_or] at this
  rw [← this, hi, Bool.true_or]

theorem satTerm_or {a : Nat → Bool} {u v : Nat} :
    satTerm a (u ||| v) ↔ satTerm a u ∧ satTerm a v := by
  constructor
  · intro h
    refine ⟨satTerm_of_subset ?_ h, satTerm_of_subset ?_ h⟩
    · rw [← Nat.or_assoc, Nat.or_self]
    · rw [Nat.or_comm u v, ← Nat.or_assoc, Nat.or_self]
  · rintro ⟨hu, hv⟩ i hi
    rw [Nat.testBit_or, Bool.or_eq_true] at hi
    rcases hi with hi | hi
    · exact hu i hi
    · exact hv i hi

theorem satTerm_two_pow {a : Nat → Bool} {pos : Nat} :
    satTerm a (1 <<< pos) ↔ a pos = true := by
  rw [Nat.one_shiftLeft]
  constructor
  · intro h
    exact h pos (by simp [Nat.testBit_two_pow])
  · intro h i hi
    rw [Nat.testBit_two_pow] at hi
    simp only [decide_eq_true_eq] at hi
    rwa [← hi]

/-- Inserting a candidate preserves the semantics of the DNF, adding exactly
the candidate's models. -/
theorem satDNF_insertTerm (a : Nat → Bool) (L : List Nat) (z : Nat) :
    satDNF a (insertTerm L z) ↔ satDNF a L ∨ satTerm a z := by
  rw [insertTerm_eq]
  by_cases h : (L.any fun q => z ||| q == z) = true
  · rw [if_pos h]
    simp only [List.any_eq_true, beq_iff_eq] at h
    obtain ⟨q, hqL, hq⟩ := h
    constructor
    · exact Or.inl
    · rintro (hL | hz)
      · exact hL
      · exact ⟨q, hqL, satTerm_of_subset (by rw [Nat.or_comm]; exact hq) hz⟩
  · rw [if_neg h]
    simp only [List.any_eq_true, beq_iff_eq, not_exists, not_and] at h
    constructor
    · rintro ⟨t, ht, hsat⟩
      rw [List.mem_append, List.mem_singleton] at ht
      rcases ht with ht | rfl
      · exact Or.inl ⟨t, List.mem_of_mem_filter ht, hsat⟩
      · exact Or.inr hsat
    · rintro (⟨t, ht, hsat⟩ | hz)
      · by_cases hkeep : (z ||| t == t) = true
        · simp only [beq_iff_eq] at hkeep
          exact ⟨z, by simp, satTerm_of_subset hkeep hsat⟩
        · refine ⟨t, ?_, hsat⟩
          rw [List.mem_append]
          exact Or.inl (List.mem_filter.mpr ⟨ht, by simpa using hkeep⟩)
      · exact ⟨z, by simp, hz⟩

theorem satDNF_inner_fold (a : Nat → Bool) (x : Nat) :
    ∀ (D Dn : List Nat),
      satDNF a (D.foldl (fun Dn2 y => insertTerm Dn2 (x ||| y)) Dn) ↔
        satDNF a Dn ∨ ∃ y ∈ D, satTerm a (x ||| y) := by
  intro D
  induction D with
  | nil => intro Dn; simp [satDNF]
  | cons y tl ih =>
    intro Dn
    rw [List.foldl_cons, ih, satDNF_insertTerm]
    constructor
    · rintro (( h | h) | ⟨y', hy', h⟩)
      · exact Or.inl h
      · exact Or.inr ⟨y, by simp, h⟩
      · exact Or.inr ⟨y', by simp [hy'], h⟩
    · rintro (h | ⟨y', hy', h⟩)
      · exact Or.inl (Or.inl h)
      · rw [List.mem_cons] at hy'
        rcases hy' with rfl | hy'
        · exact Or.inl (Or.inr h)
        · exact Or.inr ⟨y', hy', h⟩

theorem satDNF_clauseStep_fold (a : Nat → Bool) (c : Nat) (D : List Nat) :
    ∀ (ps : List Nat) (Dn : List Nat),
      satDNF a (ps.foldl
        (fun Dn pos =>
          if test_bit c pos then
            D.foldl (fun Dn2 y => insertTerm Dn2 ((1 <<< pos) ||| y)) Dn
          else Dn) Dn) ↔
      satDNF a Dn ∨
        ∃ pos ∈ ps, test_bit c pos = true ∧ ∃ y ∈ D, satTerm a ((1 <<< pos) ||| y) := by
  intro ps
  induction ps with
  | nil => intro Dn; simp
  | cons p tl ih =>
    intro Dn
    rw [List.foldl_cons]
    by_cases hp : test_bit c p = true
    · rw [if_pos hp, ih, satDNF_inner_fold]
      constructor
      · rintro ((h | ⟨y, hy, h⟩) | ⟨pos, hpos, hbit, hy⟩)
        · exact Or.inl h
        · exact Or.inr ⟨p, by simp, hp, y, hy, h⟩
        · exact Or.inr ⟨pos, by simp [hpos], hbit, hy⟩
      · rintro (h | ⟨pos, hpos, hbit, hy⟩)
        · exact Or.inl (Or.inl h)
        · rw [List.mem_cons] at hpos
          rcases hpos with rfl | hpos
          · exact Or.inl (Or.inr hy)
          · exact Or.inr ⟨pos, hpos, hbit, hy⟩
    · rw [if_neg hp, ih]
      constructor
      · rintro (h | ⟨pos, hpos, hbit, hy⟩)
        · exact Or.inl h
        · exact Or.inr ⟨pos, by simp [hpos], hbit, hy⟩
      · rintro (h | ⟨pos, hpos, hbit, hy⟩)
        · exact Or.inl h
        · rw [List.mem_cons] at hpos
          rcases hpos with rfl | hpos
          · exact absurd hbit hp
          · exact Or.inr ⟨pos, hpos, hbit, hy⟩

/-- Processing one clause conjoins its (restricted) satisfaction with that of
the previous DNF. -/
theorem satDNF_clauseStep (a : Nat → Bool) (nBits : Nat) (D : List Nat)
    (c : Nat) :
    satDNF a (clauseStep nBits D c) ↔
      (∃ pos < nBits, test_bit c pos = true ∧ a pos = true) ∧ satDNF a D := by
  unfold clauseStep
  rw [satDNF_clauseStep_fold]
  simp only [satDNF, List.mem_range]
  constructor
  · rintro (h | ⟨pos, hpos, hbit, y, hy, h⟩)
    · exact absurd h (by simp [satDNF])
    · rw [satTerm_or] at h
      exact ⟨⟨pos, hpos, hbit, satTerm_two_pow.mp h.1⟩, ⟨y, hy, h.2⟩⟩
  · rintro ⟨⟨pos, hpos, hbit, ha⟩, ⟨y, hy, h⟩⟩
    exact Or.inr ⟨pos, hpos, hbit, y, hy, satTerm_or.mpr
      ⟨satTerm_two_pow.mpr ha, h⟩⟩

theorem satDNF_firstClauseTerms (a : Nat → Bool) (nBits c : Nat) :
    satDNF a (firstClauseTerms nBits c) ↔
      ∃ pos < nBits, test_bit c pos = true ∧ a pos = true := by
  unfold firstClauseTerms
  simp only [satDNF, List.mem_map, List.mem_filter, List.mem_range]
  constructor
  · rintro ⟨t, ⟨i, ⟨hi, hbit⟩, rfl⟩, h⟩
    exact ⟨i, hi, hbit, satTerm_two_pow.mp h⟩
  · rintro ⟨pos, hpos, hbit, ha⟩
    exact ⟨1 <<< pos, ⟨pos, ⟨hpos, hbit⟩, rfl⟩, satTerm_two_pow.mpr ha⟩

/-- For a clause whose bits all lie below `nBits`, the restricted satisfaction
used by the sweep agrees with classical clause satisfaction. -/
theorem satClause_restrict (a : Nat → Bool) (nBits c : Nat) (hc : c < 2 ^ nBits) :
    satClause a c ↔ ∃ pos < nBits, test_bit c pos = true ∧ a pos = true := by
  constructor
  · rintro ⟨i, hbit, ha⟩
    refine ⟨i, ?_, by rwa [test_bit_eq_testBit], ha⟩
    by_contra hlt
    push_neg at hlt
    have : c < 2 ^ i := lt_of_lt_of_le hc (Nat.pow_le_pow_right (by omega) hlt)
    rw [Nat.testBit_lt_two_pow this] at hbit
    exact Bool.false_ne_true hbit
  · rintro ⟨pos, _, hbit, ha⟩
    exact ⟨pos, by rwa [test_bit_eq_testBit] at hbit, ha⟩

theorem convert_impl_cons (c : Nat) (rest : List Nat) (nBits : Nat) :
    convert_cnf_to_dnf_impl (c :: rest) nBits =
      rest.foldl (fun D disj => clauseStep nBits D disj)
        (firstClauseTerms nBits c) := rfl

/-- Semantic correctness of the sweep on a nonempty CNF whose clauses fit in
`nBits` bits. -/
theorem satDNF_convert_impl (a : Nat → Bool) (nBits : Nat) :
    ∀ (c : Nat) (rest : List Nat),
      (∀ d ∈ c :: rest, d < 2 ^ nBits) →
      (satDNF a (convert_cnf_to_dnf_impl (c :: rest) nBits) ↔
        satCNF a (c :: rest)) := by
  intro c rest
  induction rest using List.reverseRecOn with
  | nil =>
    intro hlt
    rw [convert_impl_cons, List.foldl_nil, satDNF_firstClauseTerms,
      ← satClause_restrict a nBits c (hlt c (by simp))]
    simp [satCNF]
  | append_singleton rest d ih =>
    intro hlt
    have hlt' : ∀ e ∈ c :: rest, e < 2 ^ nBits := by
      intro e he
      apply hlt
      rcases List.mem_cons.mp he with rfl | he
      · exact List.mem_cons_self _ _
      · exact List.mem_cons_of_mem _ (List.mem_append_left _ he)
    rw [convert_impl_cons, List.foldl_append, List.foldl_cons, List.foldl_nil,
      satDNF_clauseStep, ← satClause_restrict a nBits d (hlt d (by simp))]
    rw [convert_impl_cons] at ih
    rw [ih hlt']
    constructor
    · rintro ⟨hd, hcnf⟩ e he
      rcases List.mem_cons.mp he with rfl | he
      · exact hcnf e (List.mem_cons_self _ _)
      · rcases List.mem_append.mp he with he | he
        · exact hcnf e (List.mem_cons_of_mem _ he)
        · rwa [List.mem_singleton.mp he]
    · intro hcnf
      refine ⟨hcnf d (by simp), ?_⟩
      intro e he
      apply hcnf
      rcases List.mem_cons.mp he with rfl | he
      · exact List.mem_cons_self _ _
      · exact List.mem_cons_of_mem _ (List.mem_append_left _ he)

/-! ## Antichain invariant -/

/-- No element's bitset is contained in a different element's bitset: in
particular no term strictly contains another. -/
def antichain (L : List Nat) : Prop :=
  ∀ x ∈ L, ∀ y ∈ L, x ||| y = y → x = y

theorem antichain_nil : antichain [] := by
  intro x hx
  simp at hx

theorem antichain_insertTerm {L : List Nat} (h : antichain L) (z : Nat) :
    antichain (insertTerm L z) := by
  rw [insertTerm_eq]
  by_cases hany : (L.any fun q => z ||| q == z) = true
  · rwa [if_pos hany]
  · rw [if_neg hany]
    simp only [List.any_eq_true, beq_iff_eq, not_exists, not_and] at hany
    intro x hx y hy hxy
    rw [List.mem_append, List.mem_singleton] at hx hy
    rcases hx with hx | rfl <;> rcases hy with hy | rfl
    · exact h x (List.mem_of_mem_filter hx) y (List.mem_of_mem_filter hy) hxy
    · exact absurd (by rwa [Nat.or_comm] at hxy)
        (hany x (List.mem_of_mem_filter hx))
    · have := (List.mem_filter.mp hy).2
      simp only [beq_iff_eq, Bool.not_eq_true', decide_eq_false_iff_not] at this
      exact absurd hxy (by simpa using this)
    · rfl

theorem antichain_inner_fold {D : List Nat} (x : Nat) :
    ∀ (Dn : List Nat), antichain Dn →
      antichain (D.foldl (fun Dn2 y => insertTerm Dn2 (x ||| y)) Dn) := by
  induction D with
  | nil => intro Dn h; exact h
  | cons y tl ih =>
    intro Dn h
    exact ih _ (antichain_insertTerm h _)

theorem antichain_clauseStep (nBits : Nat) (D : List Nat) (c : Nat) :
    antichain (clauseStep nBits D c) := by
  unfold clauseStep
  have : ∀ (ps : List Nat) (Dn : List Nat), antichain Dn →
      antichain (ps.foldl
        (fun Dn pos =>
          if test_bit c pos then
            D.foldl (fun Dn2 y => insertTerm Dn2 ((1 <<< pos) ||| y)) Dn
          else Dn) Dn) := by
    intro ps
    induction ps with
    | nil => intro Dn h; exact h
    | cons p tl ih =>
      intro Dn h
      rw [List.foldl_cons]
      by_cases hp : test_bit c p = true
      · rw [if_pos hp]
        exact ih _ (antichain_inner_fold _ _ h)
      · rw [if_neg hp]
        exact ih _ h
  exact this _ _ antichain_nil

theorem antichain_firstClauseTerms (nBits c : Nat) :
    antichain (firstClauseTerms nBits c) := by
  intro x hx y hy hxy
  unfold firstClauseTerms at hx hy
  simp only [List.mem_map, List.mem_filter, List.mem_range] at hx hy
  obtain ⟨i, ⟨_, _⟩, rfl⟩ := hx
  obtain ⟨j, ⟨_, _⟩, rfl⟩ := hy
  have : Nat.testBit (1 <<< i ||| 1 <<< j) i = Nat.testBit (1 <<< j) i :=
    congrArg (fun v => Nat.testBit v i) hxy
  have hij : j = i := by
    by_cases hj : j = i
    · exact hj
    · rw [Nat.testBit_or] at this
      simp [Nat.one_shiftLeft, Nat.testBit_two_pow, hj] at this
  rw [hij]

/-- The full sweep always returns an antichain. -/
theorem antichain_convert_impl (cnf : List Nat) (nBits : Nat) :
    antichain (convert_cnf_to_dnf_impl cnf nBits) := by
  match cnf with
  | [] => exact antichain_nil
  | c :: rest =>
    rw [convert_impl_cons]
    have : ∀ (cs : List Nat) (D : List Nat), antichain D →
        antichain (cs.foldl (fun D disj => clauseStep nBits D disj) D) := by
      intro cs
      induction cs with
      | nil => intro D h; exact h
      | cons e tl ih =>
        intro D h
        rw [List.foldl_cons]
        exact ih _ (antichain_clauseStep nBits D e)
    exact this rest _ (antichain_firstClauseTerms nBits c)

/-! ## SIMD kernel models (cnf_dnf/simd.rs)

Each AVX kernel scans `result_dnf_next` in lane-sized blocks: within a block it
first tests whether any lane satisfies `(z | q) == z` (skip), then collects the
lanes with `(z | q) == q`, and a scalar tail (`handle_tail_x64`) finishes the
remainder.  The 16/32-bit variants first narrow the `u64` list to `u16`/`u32`
(`x as uW`, i.e. `x % 2^W`).  The 8-bit variant passes the `u64` slice directly
to a byte-lane kernel, so its 64 lanes per block are the *bytes* of eight
consecutive `u64` elements — modelled faithfully below.  The models describe
the behaviour when the CPU feature is present (otherwise the Rust wrappers fall
back to the scalar kernel). -/

/-- `handle_tail_x64` (simd.rs 16-32), recursion over the remaining elements;
`i` is the absolute index, `acc` the deletion indices pushed so far. -/
def handleTailGo (z : Nat) : List Nat → Nat → List Nat → List Nat × Bool
  | [], _, acc => (acc, true)
  | q :: rest, i, acc =>
    if z ||| q = z then (acc, false)
    else handleTailGo z rest (i + 1) (if z ||| q = q then acc ++ [i] else acc)

def handle_tail_x64 (L : List Nat) (z : Nat) (start : Nat) (acc : List Nat) :
    List Nat × Bool :=
  handleTailGo z (L.drop start) start acc

/-- Common block structure of the 16/32/64-bit AVX-512 kernels and the AVX2
kernel: process full blocks of `lanes` elements, then the scalar tail.  The
fuel argument (instantiated with the list length) makes the recursion
structural. -/
def simdChunkGo (lanes z : Nat) : Nat → List Nat → Nat → List Nat → List Nat × Bool
  | 0, M, i, acc => handleTailGo z M i acc
  | fuel + 1, M, i, acc =>
    if lanes ≤ M.length then
      let chunk := M.take lanes
      if chunk.any (fun q => z ||| q = z) then ([], false)
      else
        simdChunkGo lanes z fuel (M.drop lanes) (i + lanes)
          (acc ++ delIdx z chunk i)
    else handleTailGo z M i acc

/-- `run_avx512_64bits` (simd.rs 152-188, 230-239): 8 lanes of 64 bits. -/
def run_avx512_64bits (L : List Nat) (z : Nat) : List Nat × Bool :=
  simdChunkGo 8 z L.length L 0 []

/-- `run_avx2_64bits` (simd.rs 190-228, 275-284): 4 lanes of 64 bits. -/
def run_avx2_64bits (L : List Nat) (z : Nat) : List Nat × Bool :=
  simdChunkGo 4 z L.length L 0 []

/-- `run_avx512_32bits` (simd.rs 112-150, 241-251): the list and candidate are
first narrowed to `u32`, then scanned with 16 lanes of 32 bits. -/
def run_avx512_32bits (L : List Nat) (z : Nat) : List Nat × Bool :=
  let M := L.map (fun x => x % 2 ^ 32)
  simdChunkGo 16 (z % 2 ^ 32) M.length M 0 []

/-- `run_avx512_16bits` (simd.rs 72-110, 253-263): narrowed to `u16`,
32 lanes of 16 bits. -/
def run_avx512_16bits (L : List Nat) (z : Nat) : List Nat × Bool :=
  let M := L.map (fun x => x % 2 ^ 16)
  simdChunkGo 32 (z % 2 ^ 16) M.length M 0 []

/-- The 64 byte lanes of one 512-bit load over eight `u64` elements
(little-endian byte order). -/
def byteLanesOfBlock (elems : List Nat) : List Nat :=
  (elems.map (fun v => (List.range 8).map (fun k => (v >>> (8 * k)) % 256))).flatten

/-- The block loop of `optimized_for_avx512_epi8` (simd.rs 34-70): `zb` is the
broadcast low byte of `z`; block `b` compares the 64 *bytes* of elements
`8b..8b+8` against `zb`; matching byte-lane indices `64b + i` are pushed.
`none` models the early `(Vec::new(), false)` return. -/
def epi8Blocks (L : List Nat) (zb : Nat) : List Nat → List Nat → Option (List Nat)
  | [], acc => some acc
  | b :: bs, acc =>
    let lanes := byteLanesOfBlock ((L.drop (8 * b)).take 8)
    if lanes.any (fun q => zb ||| q = zb) then none
    else epi8Blocks L zb bs (acc ++ delIdx zb lanes (64 * b))

/-- `optimized_for_avx512_epi8` / `run_avx512_8bits` (simd.rs 34-70, 265-273):
`n_blocks = len >> 6`, byte-lane blocks, then the scalar tail starting at
element index `64 * n_blocks` on the original `u64` data. -/
def run_avx512_8bits (L : List Nat) (z : Nat) : List Nat × Bool :=
  let nB := L.length / 64
  match epi8Blocks L (z % 256) (List.range nB) [] with
  | none => ([], false)
  | some acc => handle_tail_x64 L z (64 * nB) acc

/-! ### The 16/32/64-bit and AVX2 kernels agree with the scalar reference -/

theorem handleTailGo_spec (z : Nat) :
    ∀ (M : List Nat) (i : Nat) (acc : List Nat),
      (handleTailGo z M i acc).2 = !(M.any (fun q => z ||| q = z)) ∧
      ((M.any (fun q => z ||| q = z)) = false →
        handleTailGo z M i acc = (acc ++ delIdx z M i, true)) := by
  intro M
  induction M with
  | nil => intro i acc; simp [handleTailGo, delIdx, enumIdx]
  | cons q tl ih =>
    intro i acc
    by_cases h1 : z ||| q = z
    · constructor
      · simp [handleTailGo, h1]
      · intro hf
        simp [h1] at hf
    · have hrec := ih (i + 1) (if z ||| q = q then acc ++ [i] else acc)
      constructor
      · rw [show handleTailGo z (q :: tl) i acc =
          handleTailGo z tl (i + 1) (if z ||| q = q then acc ++ [i] else acc) by
            simp [handleTailGo, h1]]
        rw [hrec.1]
        simp [h1]
      · intro hf
        simp only [List.any_cons, Bool.or_eq_false_iff] at hf
        rw [show handleTailGo z (q :: tl) i acc =
          handleTailGo z tl (i + 1) (if z ||| q = q then acc ++ [i] else acc) by
            simp [handleTailGo, h1]]
        rw [hrec.2 hf.2, delIdx_cons]
        by_cases h2 : z ||| q = q <;> simp [h2]

theorem delIdx_append (z : Nat) :
    ∀ (A B : List Nat) (i : Nat),
      delIdx z (A ++ B) i = delIdx z A i ++ delIdx z B (i + A.length) := by
  intro A
  induction A with
  | nil => intro B i; simp [delIdx, enumIdx]
  | cons q tl ih =>
    intro B i
    rw [List.cons_append, delIdx_cons, delIdx_cons, ih]
    simp only [List.length_cons]
    rw [show i + (tl.length + 1) = i + 1 + tl.length by omega]
    simp [List.append_assoc]

theorem simdChunkGo_spec (lanes z : Nat) (hl : 0 < lanes) :
    ∀ (fuel : Nat) (M : List Nat) (i : Nat) (acc : List Nat),
      M.length ≤ fuel →
      (simdChunkGo lanes z fuel M i acc).2 = !(M.any (fun q => z ||| q = z)) ∧
      ((M.any (fun q => z ||| q = z)) = false →
        simdChunkGo lanes z fuel M i acc = (acc ++ delIdx z M i, true)) := by
  intro fuel
  induction fuel with
  | zero =>
    intro M i acc hle
    have : M = [] := List.eq_nil_of_length_eq_zero (by omega)
    subst this
    simp [simdChunkGo, handleTailGo, delIdx, enumIdx]
  | succ fuel ih =>
    intro M i acc hle
    by_cases hfull : lanes ≤ M.length
    · have hsplit : M = M.take lanes ++ M.drop lanes := (List.take_append_drop _ _).symm
      have hlen : (M.take lanes).length = lanes := by
        rw [List.length_take]
        omega
      by_cases hc : ((M.take lanes).any (fun q => z ||| q = z)) = true
      · have hM : (M.any (fun q => z ||| q = z)) = true := by
          rw [hsplit, List.any_append, hc, Bool.true_or]
        constructor
        · simp [simdChunkGo, hfull, hc, hM]
        · intro hf; rw [hM] at hf; exact absurd hf (by simp)
      · simp only [Bool.not_eq_true] at hc
        have hdroplen : (M.drop lanes).length ≤ fuel := by
          rw [List.length_drop]
          omega
        have hrec := ih (M.drop lanes) (i + lanes) (acc ++ delIdx z (M.take lanes) i) hdroplen
        have hstep : simdChunkGo lanes z (fuel + 1) M i acc =
            simdChunkGo lanes z fuel (M.drop lanes) (i + lanes)
              (acc ++ delIdx z (M.take lanes) i) := by
          simp [simdChunkGo, hfull, hc]
        have hMany : (M.any (fun q => z ||| q = z)) =
            ((M.drop lanes).any (fun q => z ||| q = z)) := by
          conv_lhs => rw [hsplit]
          rw [List.any_append, hc, Bool.false_or]
        constructor
        · rw [hstep, hrec.1, hMany]
        · intro hf
          rw [hMany] at hf
          rw [hstep, hrec.2 hf]
          conv_rhs => rw [hsplit]
          rw [delIdx_append, hlen, List.append_assoc]
    · have hspec := handleTailGo_spec z M i acc
      constructor
      · rw [show simdChunkGo lanes z (fuel + 1) M i acc = handleTailGo z M i acc by
          simp [simdChunkGo, hfull]]
        exact hspec.1
      · intro hf
        rw [show simdChunkGo lanes z (fuel + 1) M i acc = handleTailGo z M i acc by
          simp [simdChunkGo, hfull]]
        exact hspec.2 hf

theorem beq_eq_decide (a b : Nat) : (a == b) = decide (a = b) := by
  by_cases h : a = b <;> simp [h]

theorem any_beq_eq_any_decide (L : List Nat) (z : Nat) :
    (L.any fun q => z ||| q == z) = (L.any fun q => decide (z ||| q = z)) := by
  simp only [beq_eq_decide]

/-- Summary of the scalar kernel used to compare against the SIMD models. -/
theorem optimized_for_x64_spec' (L : List Nat) (z : Nat) :
    optimized_for_x64 L z =
      if (L.any fun q => decide (z ||| q = z)) then ([], false)
      else (delIdx z L 0, true) := by
  rw [optimized_for_x64_spec, any_beq_eq_any_decide]

/-- Agreement of a kernel with the scalar reference: identical skip/add
decision, and an identical deletion-index list whenever the decision is
*add*.  (On the skip path the Rust caller ignores the index list.) -/
def agreesWithScalar (K : List Nat → Nat → List Nat × Bool)
    (L : List Nat) (z : Nat) : Prop :=
  (K L z).2 = (optimized_for_x64 L z).2 ∧
    ((optimized_for_x64 L z).2 = true → K L z = optimized_for_x64 L z)

theorem chunk_kernel_agrees (lanes : Nat) (hl : 0 < lanes) (L : List Nat)
    (z : Nat) : agreesWithScalar (fun L z => simdChunkGo lanes z L.length L 0 []) L z := by
  have hspec := simdChunkGo_spec lanes z hl L.length L 0 [] le_rfl
  unfold agreesWithScalar
  rw [optimized_for_x64_spec']
  by_cases hany : (L.any fun q => decide (z ||| q = z)) = true
  · constructor
    · rw [hspec.1, hany]
      simp
    · intro h
      rw [if_pos hany] at h
      simp at h
  · simp only [Bool.not_eq_true] at hany
    constructor
    · rw [hspec.1, hany]
      simp
    · intro _
      show simdChunkGo lanes z L.length L 0 [] = _
      rw [hspec.2 hany, if_neg (by simp [hany])]
      simp

theorem run_avx512_64bits_agrees (L : List Nat) (z : Nat) :
    agreesWithScalar run_avx512_64bits L z :=
  chunk_kernel_agrees 8 (by omega) L z

theorem run_avx2_64bits_agrees (L : List Nat) (z : Nat) :
    agreesWithScalar run_avx2_64bits L z :=
  chunk_kernel_agrees 4 (by omega) L z

theorem map_mod_eq_self {W : Nat} {L : List Nat} (hb : ∀ v ∈ L, v < 2 ^ W) :
    L.map (fun x => x % 2 ^ W) = L := by
  induction L with
  | nil => rfl
  | cons a tl ih =>
    rw [List.map_cons, Nat.mod_eq_of_lt (hb a (by simp)),
      ih (fun v hv => hb v (by simp [hv]))]

theorem run_avx512_32bits_agrees (L : List Nat) (z : Nat)
    (hb : ∀ v ∈ L, v < 2 ^ 32) (hz : z < 2 ^ 32) :
    agreesWithScalar run_avx512_32bits L z := by
  have h1 : run_avx512_32bits L z = simdChunkGo 16 z L.length L 0 [] := by
    unfold run_avx512_32bits
    rw [map_mod_eq_self hb, Nat.mod_eq_of_lt hz]
  rw [agreesWithScalar, h1]
  exact chunk_kernel_agrees 16 (by omega) L z

theorem run_avx512_16bits_agrees (L : List Nat) (z : Nat)
    (hb : ∀ v ∈ L, v < 2 ^ 16) (hz : z < 2 ^ 16) :
    agreesWithScalar run_avx512_16bits L z := by
  have h1 : run_avx512_16bits L z = simdChunkGo 32 z L.length L 0 [] := by
    unfold run_avx512_16bits
    rw [map_mod_eq_self hb, Nat.mod_eq_of_lt hz]
  rw [agreesWithScalar, h1]
  exact chunk_kernel_agrees 32 (by omega) L z

/-! ## Optimization levels and the kernel dispatch (convert.rs 8-36, 180-222) -/

inductive OptimizedFor where
  | autoDetect
  | x64
  | avx512_64bits
  | avx512_32bits
  | avx512_16bits
  | avx512_8bits
  | avx2_64bits
deriving DecidableEq, Repr

/-- `OptimizedFor::max_bits` (convert.rs 28-36). -/
def OptimizedFor.max_bits : OptimizedFor → Nat
  | .autoDetect => 64
  | .avx512_8bits => 8
  | .avx512_16bits => 16
  | .avx512_32bits => 32
  | .avx512_64bits => 64
  | .avx2_64bits => 64
  | .x64 => 64

/-- `run_optimized` (convert.rs 181-222) with the CPU feature present; the
Rust `AutoDetect` arm is `unreachable!` (it is resolved to a concrete level
before this call), so that arm is mapped to the scalar reference here and all
theorems below quantify only over concrete levels. -/
def run_optimized : OptimizedFor → List Nat → Nat → List Nat × Bool
  | .autoDetect => optimized_for_x64
  | .x64 => optimized_for_x64
  | .avx512_64bits => run_avx512_64bits
  | .avx512_32bits => run_avx512_32bits
  | .avx512_16bits => run_avx512_16bits
  | .avx512_8bits => run_avx512_8bits
  | .avx2_64bits => run_avx2_64bits

theorem agreesWithScalar_x64 (L : List Nat) (z : Nat) :
    agreesWithScalar optimized_for_x64 L z :=
  ⟨rfl, fun _ => rfl⟩

/-- Every concrete kernel except the 8-bit one agrees with the scalar
reference on inputs that fit its lane width. -/
theorem run_optimized_agrees (of : OptimizedFor) (h8 : of ≠ .avx512_8bits)
    (L : List Nat) (z : Nat) (hb : ∀ v ∈ L, v < 2 ^ of.max_bits)
    (hz : z < 2 ^ of.max_bits) :
    agreesWithScalar (run_optimized of) L z := by
  cases of with
  | autoDetect => exact agreesWithScalar_x64 L z
  | x64 => exact agreesWithScalar_x64 L z
  | avx512_64bits => exact run_avx512_64bits_agrees L z
  | avx512_32bits => exact run_avx512_32bits_agrees L z hb hz
  | avx512_16bits => exact run_avx512_16bits_agrees L z hb hz
  | avx512_8bits => exact absurd rfl h8
  | avx2_64bits => exact run_avx2_64bits_agrees L z

/-! ## The conversion parameterized by the optimization level -/

/-- The insert step of the sweep with the kernel selected by `of`
(convert.rs 252-265). -/
def insertTermOf (of : OptimizedFor) (L : List Nat) (z : Nat) : List Nat :=
  let r := run_optimized of L z
  if r.2 then removeIndices L r.1 ++ [z] else L

theorem insertTermOf_x64 : insertTermOf .x64 = insertTerm := rfl

def clauseStepOf (of : OptimizedFor) (nBits : Nat) (D : List Nat) (c : Nat) :
    List Nat :=
  (List.range nBits).foldl
    (fun Dn pos =>
      if test_bit c pos then
        D.foldl (fun Dn2 y => insertTermOf of Dn2 ((1 <<< pos) ||| y)) Dn
      else Dn) []

theorem clauseStepOf_x64 : clauseStepOf .x64 = clauseStep := rfl

/-- `convert_cnf_to_dnf_impl` with the kernel selected by `of`. -/
def convert_cnf_to_dnf_implOf (of : OptimizedFor) (cnf : List Nat)
    (nBits : Nat) : List Nat :=
  match cnf with
  | [] => []
  | c :: rest => rest.foldl (fun D disj => clauseStepOf of nBits D disj)
      (firstClauseTerms nBits c)

theorem convert_cnf_to_dnf_implOf_x64 :
    convert_cnf_to_dnf_implOf .x64 = convert_cnf_to_dnf_impl := by
  funext cnf nBits
  cases cnf <;> rfl

/-- One candidate step of the early-pruning sweep (convert.rs 452-481): the
state is `(result_dnf_next, smallest_cnf_size, max_size)`. -/
def pruneStep (of : OptimizedFor) (rem : Nat) (st : List Nat × Nat × Nat)
    (z : Nat) : List Nat × Nat × Nat :=
  let cs := popCount z
  let st' := if cs < st.2.1 then (st.1, cs, cs + rem) else st
  if st'.2.2 < cs then st'
  else (insertTermOf of st'.1 z, st'.2.1, st'.2.2)

/-- Processing of one non-first clause in the early-pruning sweep. -/
def clauseStepPruned (of : OptimizedFor) (nBits : Nat) (D : List Nat)
    (c : Nat) (rem : Nat) : List Nat :=
  ((List.range nBits).foldl
    (fun st pos =>
      if test_bit c pos then
        D.foldl (fun st2 y => pruneStep of rem st2 ((1 <<< pos) ||| y)) st
      else st) ([], i32Max, 0)).1

/-- `convert_cnf_to_dnf_minimal_private_method1` (convert.rs 425-492): the
early-pruning sweep; `n_disjunction_done` is threaded through the fold and
`rem = n_disjunctions - n_disjunction_done`. -/
def convert_cnf_to_dnf_minimal_private_method1 (of : OptimizedFor)
    (cnf : List Nat) (nBits : Nat) : List Nat :=
  (cnf.foldl
    (fun st disj =>
      if st.2 = 0 then (firstClauseTerms nBits disj, st.2 + 1)
      else (clauseStepPruned of nBits st.1 disj (cnf.length - st.2), st.2 + 1))
    ([], 0)).1

example :
    convert_cnf_to_dnf_minimal_private_method1 .x64 [6, 24] 8 =
      [10, 12, 18, 20] := by decide

/-! ## Entry points (convert.rs 306-422)

`convert_cnf_to_dnf` / `convert_cnf_to_dnf_minimal` validate `n_bits` against
the encoding's `MAX_VARS` and the optimization level's `max_bits`, printing an
error and returning an empty vector on failure; the `AutoDetect` level is
resolved by CPU probing, which is why the theorems below quantify over the
concrete levels only. -/

def convert_cnf_to_dnf (maxVars : Nat) (of : OptimizedFor) (cnf : List Nat)
    (nBits : Nat) : List Nat :=
  if maxVars < nBits then []
  else if of ≠ .autoDetect ∧ of.max_bits < nBits then []
  else convert_cnf_to_dnf_implOf of cnf nBits

def convert_cnf_to_dnf_minimal (maxVars : Nat) (of : OptimizedFor)
    (cnf : List Nat) (nBits : Nat) (early_prune : Bool) : List Nat :=
  if maxVars < nBits then []
  else if of ≠ .autoDetect ∧ of.max_bits < nBits then []
  else
    minFilter
      (if early_prune then convert_cnf_to_dnf_minimal_private_method1 of cnf nBits
       else convert_cnf_to_dnf_implOf of cnf nBits)

/-! ### Kernel independence of the sweep on fitting inputs -/

theorem bounded_insertTerm {B : Nat} {L : List Nat} (hb : ∀ v ∈ L, v < B)
    {z : Nat} (hz : z < B) : ∀ v ∈ insertTerm L z, v < B := by
  rw [insertTerm_eq]
  by_cases h : (L.any fun q => z ||| q == z) = true
  · rwa [if_pos h]
  · rw [if_neg h]
    intro v hv
    rw [List.mem_append, List.mem_singleton] at hv
    rcases hv with hv | rfl
    · exact hb v (List.mem_of_mem_filter hv)
    · exact hz

theorem insertTermOf_eq_insertTerm {of : OptimizedFor} {L : List Nat} {z : Nat}
    (h : agreesWithScalar (run_optimized of) L z) :
    insertTermOf of L z = insertTerm L z := by
  unfold insertTermOf insertTerm
  by_cases hs : (optimized_for_x64 L z).2 = true
  · rw [h.2 hs]
  · have h2 : (run_optimized of L z).2 = false := by
      rw [h.1]
      exact Bool.not_eq_true _ ▸ (by simpa using hs)
    have h3 : (optimized_for_x64 L z).2 = false := by simpa using hs
    simp only [h2, h3, Bool.false_eq_true, if_false]

/-- Within the sweep all values stay below `2 ^ nBits`; on such values any
kernel other than the broken 8-bit one is interchangeable with the scalar
reference. -/
theorem insertTermOf_eq_of_fit {of : OptimizedFor} (h8 : of ≠ .avx512_8bits)
    {nBits : Nat} (hfit : nBits ≤ of.max_bits) {L : List Nat}
    (hb : ∀ v ∈ L, v < 2 ^ nBits) {z : Nat} (hz : z < 2 ^ nBits) :
    insertTermOf of L z = insertTerm L z := by
  have hle : (2 : Nat) ^ nBits ≤ 2 ^ of.max_bits :=
    Nat.pow_le_pow_right (by omega) hfit
  exact insertTermOf_eq_insertTerm
    (run_optimized_agrees of h8 L z
      (fun v hv => lt_of_lt_of_le (hb v hv) hle) (lt_of_lt_of_le hz hle))

theorem inner_fold_of_eq {of : OptimizedFor} (h8 : of ≠ .avx512_8bits)
    {nBits : Nat} (hfit : nBits ≤ of.max_bits) {x : Nat} (hx : x < 2 ^ nBits) :
    ∀ (D : List Nat), (∀ v ∈ D, v < 2 ^ nBits) →
      ∀ (Dn : List Nat), (∀ v ∈ Dn, v < 2 ^ nBits) →
      (D.foldl (fun Dn2 y => insertTermOf of Dn2 (x ||| y)) Dn =
        D.foldl (fun Dn2 y => insertTerm Dn2 (x ||| y)) Dn) ∧
      (∀ v ∈ D.foldl (fun Dn2 y => insertTerm Dn2 (x ||| y)) Dn, v < 2 ^ nBits) := by
  intro D
  induction D with
  | nil => intro _ Dn hDn; exact ⟨rfl, hDn⟩
  | cons y tl ih =>
    intro hD Dn hDn
    have hy : y < 2 ^ nBits := hD y (by simp)
    have hz : x ||| y < 2 ^ nBits := Nat.or_lt_two_pow hx hy
    have htl : ∀ v ∈ tl, v < 2 ^ nBits := fun v hv => hD v (by simp [hv])
    have hins : insertTermOf of Dn (x ||| y) = insertTerm Dn (x ||| y) :=
      insertTermOf_eq_of_fit h8 hfit hDn hz
    have hbnd : ∀ v ∈ insertTerm Dn (x ||| y), v < 2 ^ nBits :=
      bounded_insertTerm hDn hz
    rw [List.foldl_cons, List.foldl_cons, hins]
    exact ih htl _ hbnd

theorem clauseStepOf_eq_of_fit {of : OptimizedFor} (h8 : of ≠ .avx512_8bits)
    {nBits : Nat} (hfit : nBits ≤ of.max_bits) {D : List Nat}
    (hD : ∀ v ∈ D, v < 2 ^ nBits) (c : Nat) :
    clauseStepOf of nBits D c = clauseStep nBits D c ∧
      (∀ v ∈ clauseStep nBits D c, v < 2 ^ nBits) := by
  unfold clauseStepOf clauseStep
  have main : ∀ (ps : List Nat), (∀ p ∈ ps, p < nBits) →
      ∀ (Dn : List Nat), (∀ v ∈ Dn, v < 2 ^ nBits) →
      (ps.foldl
        (fun Dn pos =>
          if test_bit c pos then
            D.foldl (fun Dn2 y => insertTermOf of Dn2 ((1 <<< pos) ||| y)) Dn
          else Dn) Dn =
       ps.foldl
        (fun Dn pos =>
          if test_bit c pos then
            D.foldl (fun Dn2 y => insertTerm Dn2 ((1 <<< pos) ||| y)) Dn
          else Dn) Dn) ∧
      (∀ v ∈ ps.foldl
        (fun Dn pos =>
          if test_bit c pos then
            D.foldl (fun Dn2 y => insertTerm Dn2 ((1 <<< pos) ||| y)) Dn
          else Dn) Dn, v < 2 ^ nBits) := by
    intro ps
    induction ps with
    | nil => intro _ Dn hDn; exact ⟨rfl, hDn⟩
    | cons p tl ih =>
      intro hps Dn hDn
      have hp : p < nBits := hps p (by simp)
      have hx : (1 <<< p) < 2 ^ nBits := by
        rw [Nat.one_shiftLeft]
        exact Nat.pow_lt_pow_right (by omega) hp
      have htl : ∀ q ∈ tl, q < nBits := fun q hq => hps q (by simp [hq])
      rw [List.foldl_cons, List.foldl_cons]
      by_cases hb : test_bit c p = true
      · rw [if_pos hb, if_pos hb]
        have hinner := inner_fold_of_eq h8 hfit hx D hD Dn hDn
        rw [hinner.1]
        exact ih htl _ hinner.2
      · rw [if_neg hb, if_neg hb]
        exact ih htl _ hDn
  exact main (List.range nBits) (by intro p hp; exact List.mem_range.mp hp) []
    (by intro v hv; simp at hv)

theorem bounded_firstClauseTerms (nBits c : Nat) :
    ∀ v ∈ firstClauseTerms nBits c, v < 2 ^ nBits := by
  intro v hv
  unfold firstClauseTerms at hv
  simp only [List.mem_map, List.mem_filter, List.mem_range] at hv
  obtain ⟨i, ⟨hi, _⟩, rfl⟩ := hv
  rw [Nat.one_shiftLeft]
  exact Nat.pow_lt_pow_right (by omega) hi

/-- On any fitting optimization level the sweep computes exactly what the
scalar level computes, and all produced terms fit in `nBits` bits. -/
theorem convert_cnf_to_dnf_implOf_eq {of : OptimizedFor}
    (h8 : of ≠ .avx512_8bits) {nBits : Nat} (hfit : nBits ≤ of.max_bits)
    (cnf : List Nat) :
    convert_cnf_to_dnf_implOf of cnf nBits = convert_cnf_to_dnf_impl cnf nBits ∧
      (∀ v ∈ convert_cnf_to_dnf_impl cnf nBits, v < 2 ^ nBits) := by
  match cnf with
  | [] => exact ⟨rfl, by intro v hv; simp [convert_cnf_to_dnf_impl] at hv⟩
  | c :: rest =>
    rw [convert_impl_cons]
    show (rest.foldl (fun D disj => clauseStepOf of nBits D disj)
        (firstClauseTerms nBits c) = _) ∧ _
    have main : ∀ (cs : List Nat) (D : List Nat), (∀ v ∈ D, v < 2 ^ nBits) →
        (cs.foldl (fun D disj => clauseStepOf of nBits D disj) D =
          cs.foldl (fun D disj => clauseStep nBits D disj) D) ∧
        (∀ v ∈ cs.foldl (fun D disj => clauseStep nBits D disj) D,
          v < 2 ^ nBits) := by
      intro cs
      induction cs with
      | nil => intro D hD; exact ⟨rfl, hD⟩
      | cons e tl ih =>
        intro D hD
        rw [List.foldl_cons, List.foldl_cons]
        have hstep := clauseStepOf_eq_of_fit h8 hfit hD e
        rw [hstep.1]
        exact ih _ hstep.2
    exact main rest _ (bounded_firstClauseTerms nBits c)

/-! ## Claim C1: semantic equivalence of `convert_cnf_to_dnf` -/

/-- C1 (counterexample): the claim as stated fails for the empty CNF — an
empty clause list is vacuously satisfied, while `convert_cnf_to_dnf` returns
the empty term list, which has no satisfied term. -/
theorem convert_cnf_to_dnf_empty_cnf_counterexample :
    satCNF (fun _ => true) [] ∧
      ¬ satDNF (fun _ => true) (convert_cnf_to_dnf 64 .x64 [] 1) := by
  constructor
  · intro c hc
    simp at hc
  · intro h
    obtain ⟨t, ht, _⟩ := h
    revert ht
    show t ∈ convert_cnf_to_dnf 64 .x64 [] 1 → False
    rw [show convert_cnf_to_dnf 64 .x64 [] 1 = [] from rfl]
    simp

/-- C1 (amended): for every *nonempty* CNF over variables `0..n_bits`
(clauses fitting in `n_bits` bits), `n_bits` within the encoding's capacity
and within the (concrete, non-8-bit) optimization level's lane width, an
assignment satisfies the CNF iff it satisfies some term returned by
`convert_cnf_to_dnf`. -/
theorem convert_cnf_to_dnf_semantically_equivalent
    (maxVars : Nat) (of : OptimizedFor) (cnf : List Nat) (nBits : Nat)
    (a : Nat → Bool) (_hAD : of ≠ .autoDetect) (h8 : of ≠ .avx512_8bits)
    (hne : cnf ≠ []) (hcl : ∀ c ∈ cnf, c < 2 ^ nBits)
    (hcap : nBits ≤ maxVars) (hfit : nBits ≤ of.max_bits) :
    satCNF a cnf ↔ satDNF a (convert_cnf_to_dnf maxVars of cnf nBits) := by
  unfold convert_cnf_to_dnf
  rw [if_neg (by omega), if_neg (by intro h; omega)]
  rw [(convert_cnf_to_dnf_implOf_eq h8 hfit cnf).1]
  match cnf, hne with
  | c :: rest, _ => exact (satDNF_convert_impl a nBits c rest hcl).symm

theorem convert_cnf_to_dnf_semantically_equivalent_witness :
    satCNF (fun i => decide (i = 1)) [6, 24] ↔
      satDNF (fun i => decide (i = 1)) (convert_cnf_to_dnf 64 .x64 [6, 24] 8) :=
  convert_cnf_to_dnf_semantically_equivalent 64 .x64 [6, 24] 8
    (fun i => decide (i = 1)) (by decide) (by decide) (by decide)
    (by decide) (by decide) (by decide)

/-! ## Claim C5: the returned DNF is an antichain, at every stage -/

/-- C5: for every CNF and every concrete non-8-bit optimization level fitting
`n_bits`, `convert_cnf_to_dnf` returns an antichain (no term's bit set
strictly contains another's), and the intermediate result after each processed
clause — which equals the sweep applied to the corresponding prefix of the
CNF — is an antichain as well. -/
theorem convert_cnf_to_dnf_antichain
    (maxVars : Nat) (of : OptimizedFor) (cnf : List Nat) (nBits : Nat)
    (h8 : of ≠ .avx512_8bits) (hfit : nBits ≤ of.max_bits) :
    antichain (convert_cnf_to_dnf maxVars of cnf nBits) ∧
      ∀ j, antichain (convert_cnf_to_dnf_implOf of (cnf.take j) nBits) := by
  constructor
  · unfold convert_cnf_to_dnf
    by_cases h1 : maxVars < nBits
    · rw [if_pos h1]; exact antichain_nil
    · rw [if_neg h1]
      by_cases h2 : of ≠ OptimizedFor.autoDetect ∧ of.max_bits < nBits
      · rw [if_pos h2]; exact antichain_nil
      · rw [if_neg h2, (convert_cnf_to_dnf_implOf_eq h8 hfit cnf).1]
        exact antichain_convert_impl cnf nBits
  · intro j
    rw [(convert_cnf_to_dnf_implOf_eq h8 hfit (cnf.take j)).1]
    exact antichain_convert_impl (cnf.take j) nBits

theorem convert_cnf_to_dnf_antichain_witness :
    antichain (convert_cnf_to_dnf 64 .x64 [6, 24] 8) ∧
      ∀ j, antichain (convert_cnf_to_dnf_implOf .x64 ([6, 24].take j) 8) :=
  convert_cnf_to_dnf_antichain 64 .x64 [6, 24] 8 (by decide) (by decide)

/-! ## Claim C2: SIMD subsumption variants vs the scalar reference

The 16/32/64-bit AVX-512 variants and the AVX2 variant agree with the scalar
reference on fitting inputs (`run_optimized_agrees` above).  The 8-bit variant
does not: `run_avx512_8bits` hands the `u64` slice to the byte-lane kernel
without narrowing it to `u8` elements, so the 64 lanes of a block are the raw
bytes of eight `u64` values; every upper byte of such an element equals the
broadcast byte whenever `z | 0 == z`, forcing a spurious *skip*. -/

/-- C2: on `L = [1; 64]`, `z = 2` (all values fit in 8 bits) the 8-bit AVX-512
kernel reports *skip* while the scalar reference reports *add*. -/
theorem run_avx512_8bits_diverges_from_scalar :
    (∀ v ∈ List.replicate 64 1, v < 2 ^ 8) ∧ (2 : Nat) < 2 ^ 8 ∧
    run_avx512_8bits (List.replicate 64 1) 2 = ([], false) ∧
    optimized_for_x64 (List.replicate 64 1) 2 = ([], true) := by
  refine ⟨?_, by omega, by decide, by decide⟩
  intro v hv
  rw [List.eq_of_mem_replicate hv]
  omega

/-! ## Encodings (qm/encoding.rs) and MintermSet (qm/minterm_set.rs) -/

def Enc16_DK_OFFSET : Nat := 16
def Enc16_MAX_VARS : Nat := 16
def Enc16_BUCKET_WIDTH : Nat := 33
/-- Bit width of `Enc16`'s value type `u32`. -/
def Enc16_VALUE_BITS : Nat := 32

def Enc32_DK_OFFSET : Nat := 32
def Enc32_MAX_VARS : Nat := 32
def Enc32_BUCKET_WIDTH : Nat := 65
/-- Bit width of `Enc32`'s value type `u64`. -/
def Enc32_VALUE_BITS : Nat := 64

def Enc64_DK_OFFSET : Nat := 64
def Enc64_MAX_VARS : Nat := 64
def Enc64_BUCKET_WIDTH : Nat := 129
/-- Bit width of `Enc64`'s value type `u128`. -/
def Enc64_VALUE_BITS : Nat := 128

/-- `MintermSet` (minterm_set.rs): `BUCKET_WIDTH` buckets plus the cached
maximum bit count. -/
structure MintermSet where
  data : List (List Nat)
  max_bit_count : Nat

/-- `MintermSet::new`. -/
def MintermSet.new (bucketWidth : Nat) : MintermSet :=
  ⟨List.replicate bucketWidth [], 0⟩

/-- `MintermSet::add` (minterm_set.rs 28-34): the bucket index is the
population count of the **whole** value (`value.count_ones()`), not of its
data half. -/
def MintermSet.add (s : MintermSet) (v : Nat) : MintermSet :=
  let bit_count := popCount v
  { data := s.data.set bit_count ((s.data.getD bit_count []) ++ [v])
    max_bit_count :=
      if s.max_bit_count < bit_count then bit_count else s.max_bit_count }

def MintermSet.add_all (s : MintermSet) (vs : List Nat) : MintermSet :=
  vs.foldl MintermSet.add s

/-! ### Claim C7 -/

/-- C7 (counterexample): the bucket array width is `33` for `Enc16`, not
`N_max + 1 = 17`; and adding the value `2^16 + 1` (data half `1`, one
don't-care bit) puts it in bucket `2` although its data half has exactly one
set bit. -/
theorem mintermSet_bucket_width_counterexample :
    Enc16_BUCKET_WIDTH ≠ Enc16_MAX_VARS + 1 ∧
    ((MintermSet.new Enc16_BUCKET_WIDTH).add (2 ^ 16 + 1)).data.getD 2 [] =
      [2 ^ 16 + 1] ∧
    popCount ((2 ^ 16 + 1) % 2 ^ Enc16_DK_OFFSET) = 1 := by
  refine ⟨by decide, ?_, by decide⟩
  decide

theorem length_mintermSet_add (s : MintermSet) (v : Nat) :
    (s.add v).data.length = s.data.length := by
  simp [MintermSet.add]

/-- C7 (amended, bucket invariant): after any sequence of `add` operations,
every element of bucket `k` has exactly `k` set bits **in the whole value**
(data and don't-care halves together). -/
theorem mintermSet_bucket_invariant (bucketWidth : Nat) (vs : List Nat) :
    ∀ k, ∀ v ∈ ((MintermSet.new bucketWidth).add_all vs).data.getD k [],
      popCount v = k := by
  suffices h : ∀ (s : MintermSet),
      (∀ k, ∀ v ∈ s.data.getD k [], popCount v = k) →
      ∀ k, ∀ v ∈ (s.add_all vs).data.getD k [], popCount v = k by
    apply h
    intro k v hv
    unfold MintermSet.new at hv
    rcases Nat.lt_or_ge k bucketWidth with hk | hk
    · rw [List.getD_eq_getElem?_getD, List.getElem?_replicate, if_pos hk] at hv
      simp at hv
    · rw [List.getD_eq_getElem?_getD] at hv
      rw [List.getElem?_eq_none (by simpa using hk)] at hv
      simp at hv
  induction vs with
  | nil => intro s hs; exact hs
  | cons v tl ih =>
    intro s hs
    apply ih
    intro k w hw
    unfold MintermSet.add at hw
    simp only [List.getD_eq_getElem?_getD] at hw hs
    by_cases hk : k = popCount v
    · subst hk
      rcases Nat.lt_or_ge (popCount v) s.data.length with hlen | hlen
      · rw [List.getElem?_set_self', List.getElem?_eq_getElem hlen] at hw
        simp only [Option.map_some, Option.getD_some, Function.const_apply] at hw
        rw [List.mem_append] at hw
        rcases hw with hw | hw
        · refine hs (popCount v) w ?_
          rw [List.getElem?_eq_getElem hlen]
          simpa using hw
        · rw [List.mem_singleton] at hw
          rw [hw]
      · rw [List.getElem?_eq_none (by simpa using hlen)] at hw
        simp at hw
    · rw [List.getElem?_set_ne (by omega)] at hw
      exact hs k w hw

theorem mintermSet_bucket_invariant_witness :
    (2 ^ 16 + 1) ∈
      ((MintermSet.new Enc16_BUCKET_WIDTH).add_all [2 ^ 16 + 1]).data.getD 2 [] ∧
    popCount (2 ^ 16 + 1) = 2 :=
  ⟨by decide,
    mintermSet_bucket_invariant Enc16_BUCKET_WIDTH [2 ^ 16 + 1] 2 (2 ^ 16 + 1)
      (by decide)⟩

/-! ### Claim C10 -/

/-- C10: the population count of any value of an encoding's value type is
strictly below the encoding's bucket width, so the bucket index used by
`MintermSet::add` is always inside the freshly created bucket array — for
arbitrary raw implicant words, including ones with don't-care bits set. -/
theorem mintermSet_add_index_in_bounds (v : Nat) :
    (v < 2 ^ Enc16_VALUE_BITS →
      popCount v < Enc16_BUCKET_WIDTH ∧
      popCount v < (MintermSet.new Enc16_BUCKET_WIDTH).data.length) ∧
    (v < 2 ^ Enc32_VALUE_BITS →
      popCount v < Enc32_BUCKET_WIDTH ∧
      popCount v < (MintermSet.new Enc32_BUCKET_WIDTH).data.length) ∧
    (v < 2 ^ Enc64_VALUE_BITS →
      popCount v < Enc64_BUCKET_WIDTH ∧
      popCount v < (MintermSet.new Enc64_BUCKET_WIDTH).data.length) := by
  have hlen : ∀ w, (MintermSet.new w).data.length = w := by
    intro w
    simp [MintermSet.new]
  refine ⟨fun h => ⟨?_, ?_⟩, fun h => ⟨?_, ?_⟩, fun h => ⟨?_, ?_⟩⟩
  · have := popCount_le_of_lt_two_pow Enc16_VALUE_BITS v h
    unfold Enc16_BUCKET_WIDTH Enc16_VALUE_BITS at *
    omega
  · have := popCount_le_of_lt_two_pow Enc16_VALUE_BITS v h
    rw [hlen]
    unfold Enc16_BUCKET_WIDTH Enc16_VALUE_BITS at *
    omega
  · have := popCount_le_of_lt_two_pow Enc32_VALUE_BITS v h
    unfold Enc32_BUCKET_WIDTH Enc32_VALUE_BITS at *
    omega
  · have := popCount_le_of_lt_two_pow Enc32_VALUE_BITS v h
    rw [hlen]
    unfold Enc32_BUCKET_WIDTH Enc32_VALUE_BITS at *
    omega
  · have := popCount_le_of_lt_two_pow Enc64_VALUE_BITS v h
    unfold Enc64_BUCKET_WIDTH Enc64_VALUE_BITS at *
    omega
  · have := popCount_le_of_lt_two_pow Enc64_VALUE_BITS v h
    rw [hlen]
    unfold Enc64_BUCKET_WIDTH Enc64_VALUE_BITS at *
    omega

theorem mintermSet_add_index_in_bounds_witness :
    popCount (2 ^ 32 - 1) < Enc16_BUCKET_WIDTH ∧
      popCount (2 ^ 32 - 1) < (MintermSet.new Enc16_BUCKET_WIDTH).data.length :=
  (mintermSet_add_index_in_bounds (2 ^ 32 - 1)).1 (by norm_num [Enc16_VALUE_BITS])

/-! ## `replace_complements` (qm/classic.rs 106-109, qm/implicant.rs 65-67)

`replace_complements::<E>(a, b) = a | (a ^ b) | ((a ^ b) << E::DK_OFFSET)`,
computed in the encoding's value type of width `2 * DK_OFFSET` (the left shift
wraps).  `DK_OFFSET` appears below as `S`. -/

def replace_complements (S a b : Nat) : Nat :=
  let neq := a ^^^ b
  a ||| neq ||| ((neq <<< S) % 2 ^ (2 * S))

/-- Low `S` bits: the data half of an implicant word. -/
def dataHalf (S v : Nat) : Nat := v % 2 ^ S

/-- High bits from `S` upward: the don't-care half of an implicant word. -/
def dcHalf (S v : Nat) : Nat := v >>> S

/-! ### Claim C6 -/

/-- C6 (counterexample): `0` and `1` are valid `Enc32` implicants (disjoint
halves, all bits inside `[0, N)`) differing in exactly the single data bit
`0`, yet the combined implicant `replace_complements 32 0 1 = 1 | (1 << 32)`
has **both** the data bit and the don't-care bit set at position `0`. -/
theorem replace_complements_data_dc_overlap_counterexample :
    ((0 : Nat) ^^^ 1) = 2 ^ 0 ∧
    dataHalf 32 0 &&& dcHalf 32 0 = 0 ∧ dataHalf 32 1 &&& dcHalf 32 1 = 0 ∧
    Nat.testBit (dataHalf 32 (replace_complements 32 0 1)) 0 = true ∧
    Nat.testBit (dcHalf 32 (replace_complements 32 0 1)) 0 = true := by
  refine ⟨by decide, by decide, by decide, ?_, ?_⟩ <;>
    · show Nat.testBit _ 0 = true
      decide

theorem testBit_dataHalf (S v j : Nat) :
    (dataHalf S v).testBit j = (decide (j < S) && v.testBit j) :=
  Nat.testBit_mod_two_pow v S j

theorem testBit_dcHalf (S v j : Nat) :
    (dcHalf S v).testBit j = v.testBit (S + j) :=
  Nat.testBit_shiftRight v

theorem or_xor_eq_or (a b : Nat) : a ||| (a ^^^ b) = a ||| b := by
  apply Nat.eq_of_testBit_eq
  intro i
  rw [Nat.testBit_or, Nat.testBit_or, Nat.testBit_xor]
  cases a.testBit i <;> cases b.testBit i <;> rfl

/-- C6 (amended): combining two valid implicants with equal don't-care masks
that differ in exactly one data bit `i < N ≤ S` yields a word whose halves
still fit in `[0, N)`, whose data half is the union of the two data halves,
whose don't-care half gains exactly bit `i` — and whose data and don't-care
halves intersect **exactly** in bit `i` (so the data/dc-disjointness claimed
by the specification is violated precisely at the merged position, and
nowhere else). -/
theorem replace_complements_invariant (S N a b i : Nat) (hNS : N ≤ S)
    (ha : dataHalf S a < 2 ^ N) (hdca : dcHalf S a < 2 ^ N)
    (hdisja : dataHalf S a &&& dcHalf S a = 0)
    (hb : dataHalf S b < 2 ^ N) (_hdcb : dcHalf S b < 2 ^ N)
    (hdisjb : dataHalf S b &&& dcHalf S b = 0)
    (hdc : dcHalf S a = dcHalf S b) (hdiff : a ^^^ b = 2 ^ i) (hi : i < N) :
    dataHalf S (replace_complements S a b) = dataHalf S a ||| dataHalf S b ∧
    dcHalf S (replace_complements S a b) = dcHalf S a ||| 2 ^ i ∧
    dataHalf S (replace_complements S a b) < 2 ^ N ∧
    dcHalf S (replace_complements S a b) < 2 ^ N ∧
    dataHalf S (replace_complements S a b) &&&
      dcHalf S (replace_complements S a b) = 2 ^ i := by
  have hiS : i < S := lt_of_lt_of_le hi hNS
  have hc : replace_complements S a b = a ||| b ||| 2 ^ (i + S) := by
    rw [show replace_complements S a b =
        a ||| (a ^^^ b) ||| ((a ^^^ b) <<< S % 2 ^ (2 * S)) from rfl]
    rw [or_xor_eq_or, hdiff, Nat.shiftLeft_eq, ← Nat.pow_add,
      Nat.mod_eq_of_lt (Nat.pow_lt_pow_right (by omega) (by omega))]
  have hdata : dataHalf S (replace_complements S a b) =
      dataHalf S a ||| dataHalf S b := by
    apply Nat.eq_of_testBit_eq
    intro j
    rw [testBit_dataHalf, hc, Nat.testBit_or, Nat.testBit_or, Nat.testBit_or,
      testBit_dataHalf, testBit_dataHalf, Nat.testBit_two_pow]
    by_cases hj : j < S
    · have : (i + S = j) = False := by simp; omega
      simp [hj, this]
    · simp [hj]
  have hdc' : dcHalf S (replace_complements S a b) = dcHalf S a ||| 2 ^ i := by
    apply Nat.eq_of_testBit_eq
    intro j
    rw [testBit_dcHalf, hc, Nat.testBit_or, Nat.testBit_or, Nat.testBit_or,
      testBit_dcHalf, Nat.testBit_two_pow, Nat.testBit_two_pow]
    have hbj : b.testBit (S + j) = a.testBit (S + j) := by
      have := congrArg (fun v => Nat.testBit v j) hdc
      simp only [testBit_dcHalf] at this
      exact this.symm
    rw [hbj]
    have hthis : decide (i + S = S + j) = decide (i = j) := by
      by_cases h : i = j
      · subst h
        have h2 : i + S = S + i := by omega
        simp [h2]
      · have h2 : ¬ (i + S = S + j) := by omega
        simp [h, h2]
    rw [hthis]
    cases a.testBit (S + j) <;> simp
  refine ⟨hdata, hdc', ?_, ?_, ?_⟩
  · rw [hdata]; exact Nat.or_lt_two_pow ha hb
  · rw [hdc']
    exact Nat.or_lt_two_pow hdca (Nat.pow_lt_pow_right (by omega) hi)
  · rw [hdata, hdc']
    apply Nat.eq_of_testBit_eq
    intro j
    rw [Nat.testBit_and, Nat.testBit_or, Nat.testBit_or, Nat.testBit_two_pow]
    have hda := congrArg (fun v => Nat.testBit v j) hdisja
    have hdb := congrArg (fun v => Nat.testBit v j) hdisjb
    simp only [Nat.testBit_and, Nat.zero_testBit] at hda hdb
    rw [← hdc] at hdb
    by_cases hij : i = j
    · subst hij
      have e1 : decide (i = i) = true := by simp
      rw [e1, Bool.or_true, Bool.and_true]
      have hxor := congrArg (fun v => Nat.testBit v i) hdiff
      simp only [Nat.testBit_xor, Nat.testBit_two_pow] at hxor
      have e2 : a.testBit i ^^ b.testBit i = true := by simpa using hxor
      have hda' : (dataHalf S a).testBit i = a.testBit i := by
        rw [testBit_dataHalf]
        simp [hiS]
      have hdb' : (dataHalf S b).testBit i = b.testBit i := by
        rw [testBit_dataHalf]
        simp [hiS]
      rw [hda', hdb']
      cases hA : a.testBit i <;> cases hB : b.testBit i <;> simp_all
    · have e1 : decide (i = j) = false := by simp [hij]
      rw [e1, Bool.or_false]
      cases hdcj : (dcHalf S a).testBit j
      · simp
      · have h3 : (dataHalf S a).testBit j = false := by
          rw [hdcj] at hda
          simpa using hda
        have h4 : (dataHalf S b).testBit j = false := by
          rw [hdcj] at hdb
          simpa using hdb
        rw [h3, h4]
        simp

theorem replace_complements_invariant_witness :
    dataHalf 32 (replace_complements 32 0 1) = dataHalf 32 0 ||| dataHalf 32 1 ∧
    dcHalf 32 (replace_complements 32 0 1) = dcHalf 32 0 ||| 2 ^ 0 ∧
    dataHalf 32 (replace_complements 32 0 1) < 2 ^ 4 ∧
    dcHalf 32 (replace_complements 32 0 1) < 2 ^ 4 ∧
    dataHalf 32 (replace_complements 32 0 1) &&&
      dcHalf 32 (replace_complements 32 0 1) = 2 ^ 0 :=
  replace_complements_invariant 32 4 0 1 0 (by omega) (by decide) (by decide)
    (by decide) (by decide) (by decide) (by decide) (by decide) (by decide)
    (by omega)

/-! ## `petrick::create_prime_implicant_table` (qm/classic.rs 372-400)

The don't-care extraction at classic.rs 387 is
`E::Value::from_u64(pi.to_u64() >> E::DK_OFFSET)`: `to_u64` converts the
value to `u64` (`as u64`: identity for `u32`/`u64`, truncation to the low 64
bits for `u128`, encoding.rs 46-48, 77-79, 108-110), the shift then acts on a
`u64`, and `from_u64` converts back to the value type (`as`, truncating to the
value width, encoding.rs 42-44, 73-75, 104-106).  For `Enc64`
(`DK_OFFSET = 64`) the `u64` shift amount equals the operand width: with
debug assertions the expression panics (shift overflow); in release mode the
amount is masked to its low 6 bits, so `>> 64` becomes `>> 0`.  The
definitions below model the release-mode semantics.  Separately, the data
mask at classic.rs 377-381 is `0xFFFF` when `DK_OFFSET == 16` and
`0xFFFF_FFFF` otherwise — including for `Enc64`, whose data half is the low
**64** bits of a `u128`. -/

/-- `BitOps::to_u64` (encoding.rs): `as u64`, i.e. identity for `u32`/`u64`
values and truncation to the low 64 bits for `u128`. -/
def to_u64 (v : Nat) : Nat := v % 2 ^ 64

/-- `BitOps::from_u64` (encoding.rs): `as`-conversion of a `u64` value into
the encoding's value type of bit width `vbits`. -/
def from_u64 (vbits v : Nat) : Nat := v % 2 ^ vbits

/-- The data mask computed at classic.rs 377-381, as a function of
`E::DK_OFFSET`. -/
def pi_data_mask (dkOffset : Nat) : Nat :=
  if dkOffset = 16 then 0xFFFF else 0xFFFFFFFF

/-- `E::Value::from_u64(pi.to_u64() >> E::DK_OFFSET)` (classic.rs 387) with
release-mode shift semantics: the `u64` shift masks its amount to the low six
bits.  Under debug assertions the same expression panics when
`DK_OFFSET = 64`. -/
def dont_know (vbits dkOffset pi : Nat) : Nat :=
  from_u64 vbits (to_u64 pi >>> (dkOffset % 64))

/-- The cover test of classic.rs 385-394: `(mt | dont_know) == q` with
`q = (DATA_MASK & pi) | dont_know`. -/
def pi_covers (vbits dkOffset pi mt : Nat) : Bool :=
  let dk := dont_know vbits dkOffset pi
  let q := (pi_data_mask dkOffset &&& pi) ||| dk
  (mt ||| dk) == q

/-- `create_prime_implicant_table`: one entry per prime implicant, carrying
the covered minterms. -/
def create_prime_implicant_table (vbits dkOffset : Nat)
    (prime_implicants minterms : List Nat) : List (Nat × List Nat) :=
  prime_implicants.map
    (fun pi => (pi, minterms.filter (pi_covers vbits dkOffset pi)))

/-- The cover relation stated by the specification:
`(m | dc(p)) == (data(p) | dc(p))`. -/
def spec_covers (dkOffset pi mt : Nat) : Bool :=
  (mt ||| dcHalf dkOffset pi) == (dataHalf dkOffset pi ||| dcHalf dkOffset pi)

/-! ### Claim C3 -/

/-- C3 (divergence at the failing input): for `Enc64` (`Value = u128`,
`DK_OFFSET = 64`) the extraction `pi.to_u64() >> DK_OFFSET` first truncates
`pi` to its low 64 bits — discarding the entire don't-care half — and then
shifts a `u64` by 64, a shift overflow (panic under debug assertions, masked
to `>> 0` in release mode).  In release mode, for the prime implicant `2^64`
(don't-care at position 0) and the minterm list `[1]`, the specification's
cover condition accepts minterm `1`, but the code computes `dont_know = 0`
and maps the implicant to the empty minterm set instead of `[1]`. -/
theorem create_prime_implicant_table_enc64_wrong_dont_care :
    ¬ Enc64_DK_OFFSET < 64 ∧
    spec_covers Enc64_DK_OFFSET (2 ^ 64) 1 = true ∧
    dont_know Enc64_VALUE_BITS Enc64_DK_OFFSET (2 ^ 64) = 0 ∧
    create_prime_implicant_table Enc64_VALUE_BITS Enc64_DK_OFFSET
      [2 ^ 64] [1] = [(2 ^ 64, [])] := by
  exact ⟨by decide, by decide, by decide, by decide⟩

/-- For values that fit the encoding, a shift amount below 64 makes the
truncations harmless: `dont_know` is exactly the don't-care half. -/
theorem dont_know_eq_dcHalf {vbits dkOffset pi : Nat} (hd : dkOffset < 64)
    (hv : vbits ≤ 64) (hpi : pi < 2 ^ vbits) :
    dont_know vbits dkOffset pi = dcHalf dkOffset pi := by
  unfold dont_know from_u64 to_u64 dcHalf
  have h1 : pi < 2 ^ 64 :=
    lt_of_lt_of_le hpi (Nat.pow_le_pow_right (by omega) hv)
  rw [Nat.mod_eq_of_lt h1, Nat.mod_eq_of_lt hd]
  apply Nat.mod_eq_of_lt
  rw [Nat.shiftRight_eq_div_pow]
  exact lt_of_le_of_lt (Nat.div_le_self _ _) hpi

/-- For the 16- and 32-bit encodings (`DK_OFFSET < 64`, value width `≤ 64`,
data mask equal to the data half's mask) the code's cover test agrees exactly
with the specification's condition. -/
theorem pi_covers_eq_spec_covers_of_mask_ok {vbits dkOffset : Nat}
    (hmask : pi_data_mask dkOffset = 2 ^ dkOffset - 1) (hd : dkOffset < 64)
    (hv : vbits ≤ 64) {pi : Nat} (hpi : pi < 2 ^ vbits) (mt : Nat) :
    pi_covers vbits dkOffset pi mt = spec_covers dkOffset pi mt := by
  unfold pi_covers spec_covers
  rw [dont_know_eq_dcHalf hd hv hpi]
  have hand : pi_data_mask dkOffset &&& pi = dataHalf dkOffset pi := by
    rw [hmask]
    apply Nat.eq_of_testBit_eq
    intro j
    rw [Nat.testBit_and, testBit_dataHalf, Nat.testBit_two_pow_sub_one,
      Bool.and_comm]
  rw [hand]

theorem create_prime_implicant_table_mask_ok_exact {vbits dkOffset : Nat}
    (hmask : pi_data_mask dkOffset = 2 ^ dkOffset - 1) (hd : dkOffset < 64)
    (hv : vbits ≤ 64) (prime_implicants minterms : List Nat)
    (hb : ∀ p ∈ prime_implicants, p < 2 ^ vbits) :
    create_prime_implicant_table vbits dkOffset prime_implicants minterms =
      prime_implicants.map
        (fun pi => (pi, minterms.filter (spec_covers dkOffset pi))) := by
  unfold create_prime_implicant_table
  apply List.map_congr_left
  intro pi hpi
  rw [List.filter_congr
    (by intro mt _
        rw [pi_covers_eq_spec_covers_of_mask_ok hmask hd hv (hb pi hpi) mt])]

/-! ## Claim C9: capacity validation of the entry point -/

/-- `CnfDnfError` (cnf_dnf/error.rs 5-21).  The type exists in the crate but
no function in the repository constructs or returns it: `convert_cnf_to_dnf`
prints a diagnostic to stderr and returns an empty `Vec<u64>`. -/
inductive CnfDnfError where
  | encodingCapacityExceeded (n_bits max_vars : Nat)
  | optimizationLevelExceeded (n_bits max_bits : Nat)
  | tooManyVariables (n_variables : Nat)
deriving DecidableEq, Repr

/-- C9 (counterexample): with the 16-variable encoding, the call at
`n_bits = N_max + 1 = 17` returns the plain empty vector — the same value an
ordinary in-capacity call can return — not a `CnfDnfError` value; the
function's return type carries no error channel. -/
theorem convert_cnf_to_dnf_no_error_value_returned :
    convert_cnf_to_dnf Enc16_MAX_VARS .x64 [3] 17 = [] ∧
    convert_cnf_to_dnf Enc16_MAX_VARS .x64 [] 16 = [] := by
  constructor
  · rfl
  · rfl

/-- C9 (amended): `n_bits = N_max` passes validation and produces the
conversion result; `n_bits = N_max + 1` makes the entry point return an empty
vector (after printing a diagnostic) with no partial output — the
`EncodingCapacityExceeded` variant exists in the error enum but is never
returned. -/
theorem convert_cnf_to_dnf_capacity_boundary (maxVars : Nat)
    (of : OptimizedFor) (cnf : List Nat) (hfit : maxVars ≤ of.max_bits) :
    convert_cnf_to_dnf maxVars of cnf maxVars =
      convert_cnf_to_dnf_implOf of cnf maxVars ∧
    convert_cnf_to_dnf maxVars of cnf (maxVars + 1) = [] := by
  constructor
  · unfold convert_cnf_to_dnf
    rw [if_neg (by omega), if_neg (by intro h; omega)]
  · unfold convert_cnf_to_dnf
    rw [if_pos (by omega)]

theorem convert_cnf_to_dnf_capacity_boundary_witness :
    convert_cnf_to_dnf Enc16_MAX_VARS .x64 [3] Enc16_MAX_VARS =
      convert_cnf_to_dnf_implOf .x64 [3] Enc16_MAX_VARS ∧
    convert_cnf_to_dnf Enc16_MAX_VARS .x64 [3] (Enc16_MAX_VARS + 1) = [] :=
  convert_cnf_to_dnf_capacity_boundary Enc16_MAX_VARS .x64 [3] (by decide)

/-! ## `petrick::petricks_method` (qm/classic.rs 583-654)

The Rust builds `translation1 : HashMap<E::Value, usize>` by iterating the
`BTreeMap` values (each a `HashSet<E::Value>`) and assigning ids in encounter
order.  A `HashSet`'s iteration order is not a function of its contents, so
the model takes each set as a *list in iteration order*; permuting these lists
leaves the table's contents unchanged but may change the result. -/

/-- Variable-id assignment in encounter order (classic.rs 589-601): the id of
a prime implicant is its index in this list. -/
def buildTranslation (table : List (Nat × List Nat)) : List Nat :=
  table.foldl
    (fun acc kv =>
      kv.2.foldl (fun acc2 pi => if pi ∈ acc2 then acc2 else acc2 ++ [pi]) acc)
    []

/-- `petricks_method` for up to 64 prime implicants: encode the table as a
CNF over selection variables, run the minimal CNF→DNF conversion, translate
the conjunctions back to prime implicants. -/
def petricks_method (of : OptimizedFor) (table : List (Nat × List Nat)) :
    List (List Nat) :=
  let trans := buildTranslation table
  let n := trans.length
  if 64 < n then []
  else
    let cnf := table.map (fun kv =>
      kv.2.foldl (fun d pi => d ||| (1 <<< trans.findIdx (fun x => x == pi))) 0)
    let enc :=
      if n ≤ 16 then Enc16_MAX_VARS
      else if n ≤ 32 then Enc32_MAX_VARS
      else Enc64_MAX_VARS
    let best := convert_cnf_to_dnf_minimal enc of cnf n false
    best.map (fun conj =>
      (List.range 64).filterMap (fun i =>
        if test_bit conj i = true ∧ i < n then some (trans.getD i 0) else none))

/-! ### Claim C8 -/

/-- C8: two tables with identical contents — the same minterm keys in the
same `BTreeMap` order, and prime-implicant sets that are permutations of one
another (`HashSet` contents are order-free) — produce different
`petricks_method` outputs: the selected first minimum conjunction is `[10]`
under one iteration order and `[20]` under the other. -/
theorem petricks_method_depends_on_hash_set_iteration_order :
    List.Perm [10, 20] [20, 10] ∧
    petricks_method .x64 [(0, [10, 20]), (1, [10, 20])] = [[10], [20]] ∧
    petricks_method .x64 [(0, [20, 10]), (1, [20, 10])] = [[20], [10]] ∧
    petricks_method .x64 [(0, [10, 20]), (1, [10, 20])] ≠
      petricks_method .x64 [(0, [20, 10]), (1, [20, 10])] := by
  refine ⟨?_, by decide, by decide, by decide⟩
  decide

/-! ## Claim C4: early pruning is an optimisation only

Proof outline: fix `θ` = the minimum popcount of the pruned run's final list.
Every candidate the pruned sweep skips has popcount strictly above `θ`
(the running `smallest + rem` bound dominates the final minimum), and
inserting such a *heavy* candidate never changes the sublist of terms with
popcount `≤ θ` (deleted supersets are heavier still).  Hence the `≤ θ`
fragments of the two sweeps coincide at every stage, and the final
minimum-popcount filters — which only see that fragment — agree. -/

/-- The sublist of terms with popcount at most `θ` (in order). -/
def lightFrag (θ : Nat) (L : List Nat) : List Nat :=
  L.filter (fun v => popCount v ≤ θ)

/-- Some element has popcount at most `s`. -/
def hasPCLe (L : List Nat) (s : Nat) : Prop :=
  ∃ v ∈ L, popCount v ≤ s

theorem hasPCLe_mono {L : List Nat} {s s' : Nat} (h : hasPCLe L s)
    (hss : s ≤ s') : hasPCLe L s' := by
  obtain ⟨v, hv, hpc⟩ := h
  exact ⟨v, hv, le_trans hpc hss⟩

/-- How the `≤ θ` fragment evolves under one insert: heavy candidates leave
it unchanged. -/
theorem lightFrag_insertTerm_heavy {θ : Nat} (z : Nat)
    (hz : θ < popCount z) (L : List Nat) :
    lightFrag θ (insertTerm L z) = lightFrag θ L := by
  rw [insertTerm_eq]
  by_cases h : (L.any fun q => z ||| q == z) = true
  · rw [if_pos h]
  · rw [if_neg h]
    unfold lightFrag
    rw [List.filter_append]
    have hzlight : (List.filter (fun v => decide (popCount v ≤ θ)) [z]) = [] := by
      simp only [List.filter_cons, List.filter_nil]
      rw [if_neg (by simp; omega)]
    rw [hzlight, List.append_nil, List.filter_filter]
    apply List.filter_congr
    intro v _
    by_cases hv : popCount v ≤ θ
    · have : (z ||| v == v) = false := by
        rw [beq_eq_decide]
        simp only [decide_eq_false_iff_not]
        intro hsub
        have : popCount z ≤ popCount v :=
          popCount_le_of_or_eq (by rwa [Nat.or_comm])
        omega
      simp [hv, this]
    · simp [hv]

/-- Light candidates commute with taking the fragment. -/
theorem lightFrag_insertTerm_light {θ : Nat} {z : Nat}
    (hz : popCount z ≤ θ) (L : List Nat) :
    lightFrag θ (insertTerm L z) = insertTerm (lightFrag θ L) z := by
  rw [insertTerm_eq, insertTerm_eq]
  have hany : (L.any fun q => z ||| q == z) =
      ((lightFrag θ L).any fun q => z ||| q == z) := by
    rcases hcase : (L.any fun q => z ||| q == z) with _ | _
    · symm
      rw [List.any_eq_false] at hcase ⊢
      intro q hq
      exact hcase q (List.mem_of_mem_filter hq)
    · symm
      rw [List.any_eq_true] at hcase ⊢
      obtain ⟨q, hqL, hq⟩ := hcase
      refine ⟨q, ?_, hq⟩
      apply List.mem_filter.mpr
      refine ⟨hqL, ?_⟩
      simp only [beq_iff_eq] at hq
      have : popCount q ≤ popCount z := popCount_le_of_or_eq hq
      simp
      omega
  rw [← hany]
  by_cases h : (L.any fun q => z ||| q == z) = true
  · rw [if_pos h, if_pos h]
  · rw [if_neg h, if_neg h]
    unfold lightFrag
    rw [List.filter_append, List.filter_filter, List.filter_filter]
    have hzkeep : (List.filter (fun v => decide (popCount v ≤ θ)) [z]) = [z] := by
      simp only [List.filter_cons, List.filter_nil]
      rw [if_pos (by simpa using hz)]
    rw [hzkeep]
    congr 1
    apply List.filter_congr
    intro v _
    rw [Bool.and_comm]

/-- The canonical evolution of the fragment: insert light candidates, ignore
heavy ones. -/
def canonStep (θ : Nat) (C : List Nat) (z : Nat) : List Nat :=
  if popCount z ≤ θ then insertTerm C z else C

/-- The fragment of the full sweep's fold is the canonical fold of the
fragment. -/
theorem full_fold_frag (θ : Nat) :
    ∀ (zs : List Nat) (Dn : List Nat),
      lightFrag θ (zs.foldl insertTerm Dn) =
        zs.foldl (canonStep θ) (lightFrag θ Dn) := by
  intro zs
  induction zs with
  | nil => intro Dn; rfl
  | cons z tl ih =>
    intro Dn
    rw [List.foldl_cons, List.foldl_cons, ih]
    unfold canonStep
    by_cases hz : popCount z ≤ θ
    · rw [if_pos hz, lightFrag_insertTerm_light hz]
    · rw [if_neg hz, lightFrag_insertTerm_heavy z (by omega)]

/-- Inserting `z` always leaves an element of popcount at most
`popCount z` in the list (either `z` itself or the element absorbing it). -/
theorem insertTerm_hasPCLe_self (L : List Nat) (z : Nat) :
    hasPCLe (insertTerm L z) (popCount z) := by
  rw [insertTerm_eq]
  by_cases h : (L.any fun q => z ||| q == z) = true
  · rw [if_pos h]
    simp only [List.any_eq_true, beq_iff_eq] at h
    obtain ⟨q, hqL, hq⟩ := h
    exact ⟨q, hqL, popCount_le_of_or_eq hq⟩
  · rw [if_neg h]
    exact ⟨z, by simp, le_rfl⟩

/-- Inserting a candidate preserves the witness of a popcount bound. -/
theorem insertTerm_hasPCLe (L : List Nat) (z : Nat) {s : Nat}
    (h : hasPCLe L s) : hasPCLe (insertTerm L z) s := by
  obtain ⟨w, hwL, hw⟩ := h
  rw [insertTerm_eq]
  by_cases hany : (L.any fun q => z ||| q == z) = true
  · rw [if_pos hany]
    exact ⟨w, hwL, hw⟩
  · rw [if_neg hany]
    by_cases hkeep : (z ||| w == w) = true
    · simp only [beq_iff_eq] at hkeep
      have : popCount z ≤ popCount w :=
        popCount_le_of_or_eq (by rwa [Nat.or_comm])
      exact ⟨z, by simp, by omega⟩
    · refine ⟨w, ?_, hw⟩
      rw [List.mem_append]
      exact Or.inl (List.mem_filter.mpr ⟨hwL, by simpa using hkeep⟩)

/-! ### The two clause loops as folds over one flattened candidate list -/

theorem foldl_ite_filter {β : Type} (p : Nat → Bool) (f : β → Nat → β) :
    ∀ (l : List Nat) (b : β),
      l.foldl (fun x y => if p y then f x y else x) b = (l.filter p).foldl f b := by
  intro l
  induction l with
  | nil => intro b; rfl
  | cons a tl ih =>
    intro b
    rw [List.foldl_cons, List.filter_cons]
    by_cases h : p a = true
    · rw [if_pos h, if_pos h, List.foldl_cons, ih]
    · rw [if_neg h, if_neg (by simpa using h), ih]

theorem foldl_flatMap {β : Type} (g : Nat → List Nat) (f : β → Nat → β) :
    ∀ (l : List Nat) (b : β),
      (l.flatMap g).foldl f b = l.foldl (fun x y => (g y).foldl f x) b := by
  intro l
  induction l with
  | nil => intro b; rfl
  | cons a tl ih =>
    intro b
    rw [List.flatMap_cons, List.foldl_append, List.foldl_cons, ih]

theorem foldl_map_assoc {β : Type} (h : Nat → Nat) (f : β → Nat → β) :
    ∀ (l : List Nat) (b : β),
      (l.map h).foldl f b = l.foldl (fun x y => f x (h y)) b := by
  intro l
  induction l with
  | nil => intro b; rfl
  | cons a tl ih =>
    intro b
    rw [List.map_cons, List.foldl_cons, List.foldl_cons, ih]

/-- The candidate stream of one non-first clause: for each set bit `pos < n`
of `c` (in order), for each term `y` of the previous DNF, `(1 << pos) | y`. -/
def cands (nBits c : Nat) (D : List Nat) : List Nat :=
  ((List.range nBits).filter (fun p => test_bit c p)).flatMap
    (fun pos => D.map (fun y => (1 <<< pos) ||| y))

theorem fold_if_flatMap {β : Type} (c : Nat) (D : List Nat)
    (step : β → Nat → β) :
    ∀ (ps : List Nat) (b : β),
      ps.foldl
        (fun x pos =>
          if test_bit c pos then
            D.foldl (fun x2 y => step x2 ((1 <<< pos) ||| y)) x
          else x) b =
      ((ps.filter (fun p => test_bit c p)).flatMap
        (fun pos => D.map (fun y => (1 <<< pos) ||| y))).foldl step b := by
  intro ps
  induction ps with
  | nil => intro b; rfl
  | cons p tl ih =>
    intro b
    rw [List.foldl_cons, List.filter_cons]
    by_cases h : test_bit c p = true
    · rw [if_pos h, if_pos h, List.flatMap_cons, List.foldl_append,
        foldl_map_assoc, ih]
    · rw [if_neg h, if_neg h, ih]

theorem clauseStep_eq_foldCands (nBits : Nat) (D : List Nat) (c : Nat) :
    clauseStep nBits D c = (cands nBits c D).foldl insertTerm [] :=
  fold_if_flatMap c D insertTerm (List.range nBits) []

theorem clauseStepPruned_eq_foldCands (of : OptimizedFor) (nBits : Nat)
    (D : List Nat) (c : Nat) (rem : Nat) :
    clauseStepPruned of nBits D c rem =
      ((cands nBits c D).foldl (pruneStep of rem) ([], i32Max, 0)).1 :=
  congrArg Prod.fst
    (fold_if_flatMap c D (pruneStep of rem) (List.range nBits) ([], i32Max, 0))

/-! ### State analysis of the pruning fold (scalar kernel) -/

theorem pruneStep_x64_def (rem : Nat) (L : List Nat) (s m z : Nat) :
    pruneStep .x64 rem (L, s, m) z =
      if popCount z < s then
        (if popCount z + rem < popCount z then (L, popCount z, popCount z + rem)
         else (insertTerm L z, popCount z, popCount z + rem))
      else
        (if m < popCount z then (L, s, m) else (insertTerm L z, s, m)) := by
  unfold pruneStep
  by_cases h : popCount z < s <;> simp [h, insertTermOf_x64]

/-- State invariant of the pruning fold: either still pristine, or
`max_size = smallest + rem` with a witness of popcount `≤ smallest`. -/
def stInv2 (rem : Nat) (st : List Nat × Nat × Nat) : Prop :=
  st.2.2 = st.2.1 + rem ∧ hasPCLe st.1 st.2.1

def stInv (rem : Nat) (st : List Nat × Nat × Nat) : Prop :=
  (st.2.1 = i32Max ∧ st.2.2 = 0) ∨ stInv2 rem st

theorem pruneStep_stInv2 (rem : Nat) (st : List Nat × Nat × Nat) (z : Nat)
    (hcs : popCount z < i32Max) (h : stInv rem st) :
    stInv2 rem (pruneStep .x64 rem st z) := by
  obtain ⟨L, s, m⟩ := st
  rw [pruneStep_x64_def]
  rcases h with ⟨hs, hm⟩ | ⟨hm, hw⟩
  · simp only at hs hm
    subst hs hm
    rw [if_pos hcs, if_neg (by omega)]
    exact ⟨rfl, insertTerm_hasPCLe_self L z⟩
  · simp only at hm hw
    by_cases hlt : popCount z < s
    · rw [if_pos hlt, if_neg (by omega)]
      exact ⟨rfl, insertTerm_hasPCLe_self L z⟩
    · rw [if_neg hlt]
      by_cases hp : m < popCount z
      · rw [if_pos hp]
        exact ⟨hm, hw⟩
      · rw [if_neg hp]
        exact ⟨hm, insertTerm_hasPCLe L z hw⟩

theorem pruneStep_smallest_le (rem : Nat) (st : List Nat × Nat × Nat)
    (z : Nat) :
    (pruneStep .x64 rem st z).2.1 ≤ st.2.1 ∧
      (pruneStep .x64 rem st z).2.1 ≤ popCount z := by
  obtain ⟨L, s, m⟩ := st
  rw [pruneStep_x64_def]
  by_cases hlt : popCount z < s
  · rw [if_pos hlt]
    by_cases hp : popCount z + rem < popCount z
    · rw [if_pos hp]; exact ⟨by simp; omega, by simp⟩
    · rw [if_neg hp]; exact ⟨by simp; omega, by simp⟩
  · rw [if_neg hlt]
    by_cases hp : m < popCount z
    · rw [if_pos hp]; exact ⟨le_rfl, by simp; omega⟩
    · rw [if_neg hp]; exact ⟨le_rfl, by simp; omega⟩

theorem fold_smallest_le (rem : Nat) :
    ∀ (zs : List Nat) (st : List Nat × Nat × Nat),
      (zs.foldl (pruneStep .x64 rem) st).2.1 ≤ st.2.1 := by
  intro zs
  induction zs with
  | nil => intro st; exact le_rfl
  | cons z tl ih =>
    intro st
    rw [List.foldl_cons]
    exact le_trans (ih _) (pruneStep_smallest_le rem st z).1

theorem fold_stInv2 (rem : Nat) :
    ∀ (zs : List Nat) (st : List Nat × Nat × Nat),
      stInv2 rem st → (∀ z ∈ zs, popCount z < i32Max) →
      stInv2 rem (zs.foldl (pruneStep .x64 rem) st) := by
  intro zs
  induction zs with
  | nil => intro st h _; exact h
  | cons z tl ih =>
    intro st h hb
    rw [List.foldl_cons]
    exact ih _ (pruneStep_stInv2 rem st z (hb z (by simp)) (Or.inr h))
      (fun w hw => hb w (by simp [hw]))

theorem fold_stInv2_of_ne_nil (rem : Nat) (zs : List Nat)
    (st : List Nat × Nat × Nat) (hne : zs ≠ []) (h : stInv rem st)
    (hb : ∀ z ∈ zs, popCount z < i32Max) :
    stInv2 rem (zs.foldl (pruneStep .x64 rem) st) := by
  match zs, hne with
  | z :: tl, _ =>
    rw [List.foldl_cons]
    exact fold_stInv2 rem tl _
      (pruneStep_stInv2 rem st z (hb z (by simp)) h)
      (fun w hw => hb w (by simp [hw]))

/-- The fragment of the pruning fold is the canonical fold of the fragment,
provided the final running minimum (plus `rem`) dominates `θ`: every pruned
candidate is then too heavy to matter. -/
theorem pruned_fold_frag (θ rem sEnd : Nat) (hB : θ + 1 ≤ sEnd + rem) :
    ∀ (zs : List Nat) (st : List Nat × Nat × Nat),
      stInv rem st →
      (∀ z ∈ zs, popCount z < i32Max) →
      sEnd ≤ (zs.foldl (pruneStep .x64 rem) st).2.1 →
      lightFrag θ (zs.foldl (pruneStep .x64 rem) st).1 =
        zs.foldl (canonStep θ) (lightFrag θ st.1) := by
  intro zs
  induction zs with
  | nil => intro st _ _ _; rfl
  | cons z tl ih =>
    intro st hinv hb hend
    rw [List.foldl_cons] at hend ⊢
    rw [List.foldl_cons]
    have hcs : popCount z < i32Max := hb z (by simp)
    have hb' : ∀ w ∈ tl, popCount w < i32Max := fun w hw => hb w (by simp [hw])
    have hinv2 : stInv rem (pruneStep .x64 rem st z) :=
      Or.inr (pruneStep_stInv2 rem st z hcs hinv)
    obtain ⟨L, s, m⟩ := st
    by_cases hlt : popCount z < s
    · -- `smallest` updated: never pruned, `z` is inserted
      have hstep : pruneStep .x64 rem (L, s, m) z =
          (insertTerm L z, popCount z, popCount z + rem) := by
        rw [pruneStep_x64_def, if_pos hlt, if_neg (by omega)]
      rw [hstep] at hend ⊢
      rw [hstep] at hinv2
      by_cases hlight : popCount z ≤ θ
      · rw [show canonStep θ (lightFrag θ L) z = insertTerm (lightFrag θ L) z by
          unfold canonStep; rw [if_pos hlight]]
        rw [← lightFrag_insertTerm_light hlight]
        exact ih _ hinv2 hb' hend
      · rw [show canonStep θ (lightFrag θ L) z = lightFrag θ L by
          unfold canonStep; rw [if_neg hlight]]
        rw [← lightFrag_insertTerm_heavy z (by omega) L]
        exact ih _ hinv2 hb' hend
    · -- `smallest` not updated
      by_cases hp : m < popCount z
      · -- pruned: the candidate must be heavy
        have hstep : pruneStep .x64 rem (L, s, m) z = (L, s, m) := by
          rw [pruneStep_x64_def, if_neg hlt, if_pos hp]
        rw [hstep] at hend ⊢
        rw [hstep] at hinv2
        have hm : m = s + rem := by
          rcases hinv with ⟨hs, hm0⟩ | ⟨hm, _⟩
          · simp only at hs
            omega
          · exact hm
        have hsend : sEnd ≤ s :=
          le_trans hend (fold_smallest_le rem tl (L, s, m))
        have hheavy : ¬ popCount z ≤ θ := by omega
        rw [show canonStep θ (lightFrag θ L) z = lightFrag θ L by
          unfold canonStep; rw [if_neg hheavy]]
        exact ih _ hinv2 hb' hend
      · -- kept: `z` is inserted
        have hstep : pruneStep .x64 rem (L, s, m) z = (insertTerm L z, s, m) := by
          rw [pruneStep_x64_def, if_neg hlt, if_neg hp]
        rw [hstep] at hend ⊢
        rw [hstep] at hinv2
        by_cases hlight : popCount z ≤ θ
        · rw [show canonStep θ (lightFrag θ L) z = insertTerm (lightFrag θ L) z by
            unfold canonStep; rw [if_pos hlight]]
          rw [← lightFrag_insertTerm_light hlight]
          exact ih _ hinv2 hb' hend
        · rw [show canonStep θ (lightFrag θ L) z = lightFrag θ L by
            unfold canonStep; rw [if_neg hlight]]
          rw [← lightFrag_insertTerm_heavy z (by omega) L]
          exact ih _ hinv2 hb' hend

/-- Heavy source terms contribute only heavy candidates, which the canonical
fold ignores: the canonical fold over one literal's candidates only sees the
fragment of the source DNF. -/
theorem canon_inner_frag (θ x : Nat) :
    ∀ (D : List Nat) (C : List Nat),
      (D.map (fun y => x ||| y)).foldl (canonStep θ) C =
        ((lightFrag θ D).map (fun y => x ||| y)).foldl (canonStep θ) C := by
  intro D
  induction D with
  | nil => intro C; rfl
  | cons y tl ih =>
    intro C
    rw [List.map_cons, List.foldl_cons]
    by_cases hy : popCount y ≤ θ
    · have : lightFrag θ (y :: tl) = y :: lightFrag θ tl := by
        unfold lightFrag
        rw [List.filter_cons, if_pos (by simpa using hy)]
      rw [this, List.map_cons, List.foldl_cons, ih]
    · have hxy : ¬ popCount (x ||| y) ≤ θ := by
        have h1 : popCount y ≤ popCount (x ||| y) := by
          have := popCount_le_or_left y x
          rwa [Nat.or_comm] at this
        omega
      have : lightFrag θ (y :: tl) = lightFrag θ tl := by
        unfold lightFrag
        rw [List.filter_cons, if_neg (by simpa using hy)]
      rw [this, show canonStep θ C (x ||| y) = C by
        unfold canonStep; rw [if_neg hxy]]
      exact ih C

/-- DNFs with equal fragments drive the canonical fold identically. -/
theorem canon_cands_eq (θ nBits c : Nat) {D P : List Nat}
    (hfrag : lightFrag θ D = lightFrag θ P) (C : List Nat) :
    (cands nBits c D).foldl (canonStep θ) C =
      (cands nBits c P).foldl (canonStep θ) C := by
  unfold cands
  rw [foldl_flatMap, foldl_flatMap]
  have : ∀ (ps : List Nat) (C : List Nat),
      ps.foldl (fun x pos => (D.map (fun y => (1 <<< pos) ||| y)).foldl
        (canonStep θ) x) C =
      ps.foldl (fun x pos => (P.map (fun y => (1 <<< pos) ||| y)).foldl
        (canonStep θ) x) C := by
    intro ps
    induction ps with
    | nil => intro C; rfl
    | cons p tl ih =>
      intro C
      rw [List.foldl_cons, List.foldl_cons, canon_inner_frag, hfrag,
        ← canon_inner_frag, ih]
  exact this _ C

/-- A clause has an effective literal: some bit below `nBits` is set. -/
def hasBit (nBits c : Nat) : Prop :=
  ∃ pos < nBits, test_bit c pos = true

theorem cands_lt {nBits c : Nat} {D : List Nat} (hD : ∀ y ∈ D, y < 2 ^ nBits) :
    ∀ z ∈ cands nBits c D, z < 2 ^ nBits := by
  intro z hz
  unfold cands at hz
  rw [List.mem_flatMap] at hz
  obtain ⟨pos, hpos, hz⟩ := hz
  rw [List.mem_map] at hz
  obtain ⟨y, hy, rfl⟩ := hz
  rw [List.mem_filter, List.mem_range] at hpos
  refine Nat.or_lt_two_pow ?_ (hD y hy)
  rw [Nat.one_shiftLeft]
  exact Nat.pow_lt_pow_right (by omega) hpos.1

theorem i32Max_large : (64 : Nat) < i32Max := by
  unfold i32Max
  norm_num

theorem cands_pc_lt {nBits c : Nat} {D : List Nat} (hn : nBits ≤ 64)
    (hD : ∀ y ∈ D, y < 2 ^ nBits) :
    ∀ z ∈ cands nBits c D, popCount z < i32Max := by
  intro z hz
  have h1 : z < 2 ^ nBits := cands_lt hD z hz
  have h2 : popCount z ≤ nBits := popCount_le_of_lt_two_pow nBits z h1
  have := i32Max_large
  omega

/-- Fragment equality is preserved by one clause: the full sweep on `D` and
the pruning sweep on `P` produce lists with identical `≤ θ` fragments, as
long as the pruning sweep's final `smallest + rem` exceeds `θ`. -/
theorem clause_frag_eq (θ nBits c rem : Nat) {D P : List Nat}
    (hfrag : lightFrag θ D = lightFrag θ P) (hn : nBits ≤ 64)
    (hbP : ∀ y ∈ P, y < 2 ^ nBits)
    (hout : ∀ s, hasPCLe (clauseStepPruned .x64 nBits P c rem) s →
      θ + 1 ≤ s + rem) :
    lightFrag θ (clauseStep nBits D c) =
      lightFrag θ (clauseStepPruned .x64 nBits P c rem) := by
  rw [clauseStep_eq_foldCands, clauseStepPruned_eq_foldCands]
  have hfull : lightFrag θ ((cands nBits c D).foldl insertTerm []) =
      (cands nBits c D).foldl (canonStep θ) [] := by
    have := full_fold_frag θ (cands nBits c D) []
    simpa [lightFrag] using this
  rw [hfull, canon_cands_eq θ nBits c hfrag]
  by_cases hne : cands nBits c P = []
  · rw [hne]
    rfl
  · have hinv2 := fold_stInv2_of_ne_nil rem (cands nBits c P) ([], i32Max, 0)
      hne (Or.inl ⟨rfl, rfl⟩) (cands_pc_lt hn hbP)
    set final := (cands nBits c P).foldl (pruneStep .x64 rem) ([], i32Max, 0)
      with hfinal
    have hB : θ + 1 ≤ final.2.1 + rem := by
      apply hout final.2.1
      rw [clauseStepPruned_eq_foldCands, ← hfinal]
      exact hinv2.2
    have hpr := pruned_fold_frag θ rem final.2.1 hB (cands nBits c P)
      ([], i32Max, 0) (Or.inl ⟨rfl, rfl⟩) (cands_pc_lt hn hbP)
      (by rw [← hfinal])
    rw [hfinal]
    have h2 : lightFrag θ
        ((cands nBits c P).foldl (pruneStep .x64 rem) ([], i32Max, 0)).1 =
        (cands nBits c P).foldl (canonStep θ) [] := by
      simpa [lightFrag] using hpr
    exact h2.symm

theorem fold_stInv (rem : Nat) :
    ∀ (zs : List Nat) (st : List Nat × Nat × Nat),
      stInv rem st → (∀ z ∈ zs, popCount z < i32Max) →
      stInv rem (zs.foldl (pruneStep .x64 rem) st) := by
  intro zs
  induction zs with
  | nil => intro st h _; exact h
  | cons z tl ih =>
    intro st h hb
    rw [List.foldl_cons]
    exact ih _ (Or.inr (pruneStep_stInv2 rem st z (hb z (by simp)) h))
      (fun w hw => hb w (by simp [hw]))

/-- One pruning clause can raise the reachable minimum popcount by at most
one: the candidate built from the first effective literal and a minimal term
is never pruned, and its weight survives to the end of the clause. -/
theorem prunedClause_hasPCLe (nBits c rem : Nat) {D : List Nat} {s : Nat}
    (hn : nBits ≤ 64) (hbD : ∀ y ∈ D, y < 2 ^ nBits)
    (hbit : hasBit nBits c) (hD : hasPCLe D s) :
    hasPCLe (clauseStepPruned .x64 nBits D c rem) (s + 1) := by
  rw [clauseStepPruned_eq_foldCands]
  obtain ⟨pos, hpos, hbitpos⟩ := hbit
  obtain ⟨d, hd, hpcd⟩ := hD
  have hzmem : ((1 <<< pos) ||| d) ∈ cands nBits c D := by
    unfold cands
    rw [List.mem_flatMap]
    refine ⟨pos, ?_, ?_⟩
    · rw [List.mem_filter, List.mem_range]
      exact ⟨hpos, hbitpos⟩
    · rw [List.mem_map]
      exact ⟨d, hd, rfl⟩
  have hpcz : popCount ((1 <<< pos) ||| d) ≤ s + 1 := by
    rw [Nat.one_shiftLeft]
    have h1 := popCount_or_le (2 ^ pos) d
    rw [popCount_two_pow] at h1
    omega
  have hb1 : ∀ z ∈ cands nBits c D, popCount z < i32Max := cands_pc_lt hn hbD
  obtain ⟨l1, l2, hsplit⟩ := List.append_of_mem hzmem
  rw [hsplit, List.foldl_append, List.foldl_cons]
  have hmem1 : ∀ z ∈ l1, popCount z < i32Max := by
    intro z hz
    exact hb1 z (by rw [hsplit]; exact List.mem_append_left _ hz)
  have hmem2 : ∀ z ∈ l2, popCount z < i32Max := by
    intro z hz
    refine hb1 z ?_
    rw [hsplit]
    exact List.mem_append_right _ (by simp [hz])
  have hinv1 : stInv rem (l1.foldl (pruneStep .x64 rem) ([], i32Max, 0)) :=
    fold_stInv rem l1 _ (Or.inl ⟨rfl, rfl⟩) hmem1
  have hst2 := pruneStep_stInv2 rem
    (l1.foldl (pruneStep .x64 rem) ([], i32Max, 0)) ((1 <<< pos) ||| d)
    (hb1 _ hzmem) hinv1
  have hsm : (pruneStep .x64 rem (l1.foldl (pruneStep .x64 rem) ([], i32Max, 0))
      ((1 <<< pos) ||| d)).2.1 ≤ s + 1 :=
    le_trans (pruneStep_smallest_le rem _ _).2 hpcz
  have hfin := fold_stInv2 rem l2 _ hst2 hmem2
  have hsm2 := le_trans (fold_smallest_le rem l2 _) hsm
  exact hasPCLe_mono hfin.2 hsm2

/-- The sequence of pruning clause steps, with `rem` computed from the number
of remaining clauses (as `n_disjunctions - n_disjunction_done` does). -/
def prunedStages (nBits : Nat) (D : List Nat) : List Nat → List Nat
  | [] => D
  | c :: cs => prunedStages nBits (clauseStepPruned .x64 nBits D c (cs.length + 1)) cs

theorem bounded_pruneStep {nBits : Nat} {st : List Nat × Nat × Nat} {rem z : Nat}
    (hb : ∀ v ∈ st.1, v < 2 ^ nBits) (hz : z < 2 ^ nBits) :
    ∀ v ∈ (pruneStep .x64 rem st z).1, v < 2 ^ nBits := by
  obtain ⟨L, s, m⟩ := st
  rw [pruneStep_x64_def]
  by_cases hlt : popCount z < s
  · rw [if_pos hlt]
    by_cases hp : popCount z + rem < popCount z
    · rw [if_pos hp]; exact hb
    · rw [if_neg hp]; exact bounded_insertTerm hb hz
  · rw [if_neg hlt]
    by_cases hp : m < popCount z
    · rw [if_pos hp]; exact hb
    · rw [if_neg hp]; exact bounded_insertTerm hb hz

theorem bounded_clauseStepPruned {nBits : Nat} {D : List Nat} (c rem : Nat)
    (hbD : ∀ y ∈ D, y < 2 ^ nBits) :
    ∀ v ∈ clauseStepPruned .x64 nBits D c rem, v < 2 ^ nBits := by
  rw [clauseStepPruned_eq_foldCands]
  have hc := @cands_lt nBits c D hbD
  have : ∀ (zs : List Nat) (st : List Nat × Nat × Nat),
      (∀ z ∈ zs, z < 2 ^ nBits) → (∀ v ∈ st.1, v < 2 ^ nBits) →
      ∀ v ∈ (zs.foldl (pruneStep .x64 rem) st).1, v < 2 ^ nBits := by
    intro zs
    induction zs with
    | nil => intro st _ hst; exact hst
    | cons z tl ih =>
      intro st hzs hst
      rw [List.foldl_cons]
      exact ih _ (fun w hw => hzs w (by simp [hw]))
        (bounded_pruneStep hst (hzs z (by simp)))
  exact this _ _ hc (by intro v hv; simp at hv)

/-- Chain bound: over `cs` further clauses the reachable minimum popcount of
the pruned run grows by at most `cs.length`. -/
theorem prunedStages_hasPCLe (nBits : Nat) (hn : nBits ≤ 64) :
    ∀ (cs : List Nat) (D : List Nat) (s : Nat),
      (∀ y ∈ D, y < 2 ^ nBits) → (∀ c ∈ cs, hasBit nBits c) →
      hasPCLe D s → hasPCLe (prunedStages nBits D cs) (s + cs.length) := by
  intro cs
  induction cs with
  | nil => intro D s _ _ h; simpa using h
  | cons c tl ih =>
    intro D s hbD hgood hD
    show hasPCLe (prunedStages nBits
      (clauseStepPruned .x64 nBits D c (tl.length + 1)) tl) _
    have h1 := prunedClause_hasPCLe nBits c (tl.length + 1) hn hbD
      (hgood c (by simp)) hD
    have h2 := ih (clauseStepPruned .x64 nBits D c (tl.length + 1)) (s + 1)
      (bounded_clauseStepPruned c (tl.length + 1) hbD)
      (fun e he => hgood e (by simp [he])) h1
    refine hasPCLe_mono h2 ?_
    simp [List.length_cons]
    omega

/-! ### The minimum-popcount filter as a fragment -/

/-- The running minimum computed by `convert_cnf_to_dnf_minimal`'s final
pass. -/
def minPC (L : List Nat) : Nat :=
  L.foldl (fun acc c => if popCount c < acc then popCount c else acc) usizeMax

theorem minPC_fold_le_init :
    ∀ (L : List Nat) (init : Nat),
      L.foldl (fun acc c => if popCount c < acc then popCount c else acc) init ≤
        init := by
  intro L
  induction L with
  | nil => intro init; exact le_rfl
  | cons v tl ih =>
    intro init
    rw [List.foldl_cons]
    by_cases h : popCount v < init
    · rw [if_pos h]; exact le_trans (ih _) (by omega)
    · rw [if_neg h]; exact ih _

theorem minPC_fold_le_mem :
    ∀ (L : List Nat) (init : Nat) (v : Nat), v ∈ L →
      L.foldl (fun acc c => if popCount c < acc then popCount c else acc) init ≤
        popCount v := by
  intro L
  induction L with
  | nil => intro init v hv; simp at hv
  | cons w tl ih =>
    intro init v hv
    rw [List.foldl_cons]
    rcases List.mem_cons.mp hv with rfl | hv
    · by_cases h : popCount v < init
      · rw [if_pos h]; exact minPC_fold_le_init tl _
      · rw [if_neg h]; exact le_trans (minPC_fold_le_init tl _) (by omega)
    · exact ih _ v hv

theorem minPC_fold_attained :
    ∀ (L : List Nat) (init : Nat),
      (L.foldl (fun acc c => if popCount c < acc then popCount c else acc) init =
        init) ∨
      ∃ v ∈ L, popCount v =
        L.foldl (fun acc c => if popCount c < acc then popCount c else acc) init := by
  intro L
  induction L with
  | nil => intro init; exact Or.inl rfl
  | cons w tl ih =>
    intro init
    rw [List.foldl_cons]
    by_cases h : popCount w < init
    · rw [if_pos h]
      rcases ih (popCount w) with h2 | ⟨v, hv, h2⟩
      · exact Or.inr ⟨w, by simp, h2.symm⟩
      · exact Or.inr ⟨v, by simp [hv], h2⟩
    · rw [if_neg h]
      rcases ih init with h2 | ⟨v, hv, h2⟩
      · exact Or.inl h2
      · exact Or.inr ⟨v, by simp [hv], h2⟩

theorem minPC_le {L : List Nat} {v : Nat} (hv : v ∈ L) :
    minPC L ≤ popCount v :=
  minPC_fold_le_mem L usizeMax v hv

theorem minPC_mem {L : List Nat} (hne : L ≠ [])
    (hb : ∀ v ∈ L, popCount v < usizeMax) :
    ∃ v ∈ L, popCount v = minPC L := by
  rcases minPC_fold_attained L usizeMax with h | h
  · obtain ⟨w, hw⟩ := List.exists_mem_of_ne_nil L hne
    have h1 := minPC_le hw
    have h2 := hb w hw
    rw [minPC] at h1
    omega
  · exact h

theorem minFilter_eq_lightFrag {L : List Nat} (hne : L ≠ []) :
    minFilter L = lightFrag (minPC L) L := by
  unfold minFilter lightFrag
  rw [if_neg (by simpa using hne)]
  apply List.filter_congr
  intro v hv
  have h1 := minPC_le hv
  show (popCount v == minPC L) = decide (popCount v ≤ minPC L)
  rw [beq_eq_decide]
  by_cases h : popCount v = minPC L
  · simp [h]
  · have : ¬ popCount v ≤ minPC L := by omega
    simp [h, this]

/-! ### Stage equations and degenerate cases -/

theorem method1_eq_prunedStages (nBits c : Nat) (rest : List Nat) :
    convert_cnf_to_dnf_minimal_private_method1 .x64 (c :: rest) nBits =
      prunedStages nBits (firstClauseTerms nBits c) rest := by
  unfold convert_cnf_to_dnf_minimal_private_method1
  rw [List.foldl_cons]
  have main : ∀ (cs : List Nat) (D : List Nat) (done : Nat),
      done ≠ 0 → done + cs.length = (c :: rest).length →
      (cs.foldl
        (fun st disj =>
          if st.2 = 0 then (firstClauseTerms nBits disj, st.2 + 1)
          else (clauseStepPruned .x64 nBits st.1 disj
            ((c :: rest).length - st.2), st.2 + 1))
        (D, done)).1 = prunedStages nBits D cs := by
    intro cs
    induction cs with
    | nil => intro D done _ _; rfl
    | cons e tl ih =>
      intro D done hdone hlen
      rw [List.foldl_cons]
      rw [if_neg (by simpa using hdone)]
      have hrem : (c :: rest).length - done = tl.length + 1 := by
        simp only [List.length_cons] at hlen ⊢
        omega
      rw [hrem]
      exact ih _ (done + 1) (by omega) (by simp at hlen ⊢; omega)
  rw [if_pos rfl]
  exact main rest _ 1 one_ne_zero (by simp [Nat.add_comm])

theorem firstClauseTerms_eq_nil {nBits c : Nat} (h : ¬ hasBit nBits c) :
    firstClauseTerms nBits c = [] := by
  unfold firstClauseTerms
  rw [List.map_eq_nil_iff, List.filter_eq_nil_iff]
  intro pos hpos
  simp only [Bool.not_eq_true]
  by_contra hbit
  exact h ⟨pos, List.mem_range.mp hpos, by simpa using hbit⟩

theorem firstClauseTerms_ne_nil {nBits c : Nat} (h : hasBit nBits c) :
    firstClauseTerms nBits c ≠ [] := by
  obtain ⟨pos, hpos, hbit⟩ := h
  unfold firstClauseTerms
  intro hcontra
  rw [List.map_eq_nil_iff, List.filter_eq_nil_iff] at hcontra
  exact hcontra pos (List.mem_range.mpr hpos) (by simpa using hbit)

theorem cands_eq_nil_left {nBits c : Nat} (D : List Nat)
    (h : ¬ hasBit nBits c) : cands nBits c D = [] := by
  unfold cands
  have : (List.range nBits).filter (fun p => test_bit c p) = [] := by
    rw [List.filter_eq_nil_iff]
    intro pos hpos
    simp only [Bool.not_eq_true]
    by_contra hbit
    exact h ⟨pos, List.mem_range.mp hpos, by simpa using hbit⟩
  rw [this, List.flatMap_nil]

theorem cands_eq_nil_right (nBits c : Nat) : cands nBits c [] = [] := by
  unfold cands
  induction ((List.range nBits).filter (fun p => test_bit c p)) with
  | nil => rfl
  | cons p tl ih => rw [List.flatMap_cons, List.map_nil, List.nil_append, ih]

theorem clauseStep_eq_nil {nBits c : Nat} {D : List Nat}
    (h : ¬ hasBit nBits c ∨ D = []) : clauseStep nBits D c = [] := by
  rw [clauseStep_eq_foldCands]
  rcases h with h | rfl
  · rw [cands_eq_nil_left D h]
    rfl
  · rw [cands_eq_nil_right]
    rfl

theorem clauseStepPruned_eq_nil {nBits c rem : Nat} {D : List Nat}
    (h : ¬ hasBit nBits c ∨ D = []) :
    clauseStepPruned .x64 nBits D c rem = [] := by
  rw [clauseStepPruned_eq_foldCands]
  rcases h with h | rfl
  · rw [cands_eq_nil_left D h]
    rfl
  · rw [cands_eq_nil_right]
    rfl

theorem fullStages_eq_nil (nBits : Nat) :
    ∀ (cs : List Nat) (D : List Nat),
      (D = [] ∨ ∃ e ∈ cs, ¬ hasBit nBits e) →
      cs.foldl (fun D disj => clauseStep nBits D disj) D = [] := by
  intro cs
  induction cs with
  | nil =>
    intro D h
    rcases h with rfl | ⟨e, he, _⟩
    · rfl
    · simp at he
  | cons e tl ih =>
    intro D h
    rw [List.foldl_cons]
    rcases h with rfl | ⟨e', he', hbad⟩
    · exact ih _ (Or.inl (clauseStep_eq_nil (Or.inr rfl)))
    · rcases List.mem_cons.mp he' with rfl | he'
      · exact ih _ (Or.inl (clauseStep_eq_nil (Or.inl hbad)))
      · exact ih _ (Or.inr ⟨e', he', hbad⟩)

theorem prunedStages_eq_nil (nBits : Nat) :
    ∀ (cs : List Nat) (D : List Nat),
      (D = [] ∨ ∃ e ∈ cs, ¬ hasBit nBits e) →
      prunedStages nBits D cs = [] := by
  intro cs
  induction cs with
  | nil =>
    intro D h
    rcases h with rfl | ⟨e, he, _⟩
    · rfl
    · simp at he
  | cons e tl ih =>
    intro D h
    show prunedStages nBits (clauseStepPruned .x64 nBits D e (tl.length + 1)) tl = []
    rcases h with rfl | ⟨e', he', hbad⟩
    · exact ih _ (Or.inl (clauseStepPruned_eq_nil (Or.inr rfl)))
    · rcases List.mem_cons.mp he' with rfl | he'
      · exact ih _ (Or.inl (clauseStepPruned_eq_nil (Or.inl hbad)))
      · exact ih _ (Or.inr ⟨e', he', hbad⟩)

theorem insertTerm_ne_nil (L : List Nat) (z : Nat) : insertTerm L z ≠ [] := by
  rw [insertTerm_eq]
  by_cases h : (L.any fun q => z ||| q == z) = true
  · rw [if_pos h]
    simp only [List.any_eq_true] at h
    obtain ⟨q, hq, _⟩ := h
    exact List.ne_nil_of_mem hq
  · rw [if_neg h]
    simp

theorem foldl_insert_ne_nil :
    ∀ (zs : List Nat) (Dn : List Nat), Dn ≠ [] →
      zs.foldl insertTerm Dn ≠ [] := by
  intro zs
  induction zs with
  | nil => intro Dn h; exact h
  | cons z tl ih =>
    intro Dn _
    rw [List.foldl_cons]
    exact ih _ (insertTerm_ne_nil Dn z)

theorem cands_ne_nil {nBits c : Nat} {D : List Nat} (hbit : hasBit nBits c)
    (hD : D ≠ []) : cands nBits c D ≠ [] := by
  obtain ⟨pos, hpos, hbitpos⟩ := hbit
  obtain ⟨d, hd⟩ := List.exists_mem_of_ne_nil D hD
  have hmem : (1 <<< pos) ||| d ∈ cands nBits c D := by
    unfold cands
    rw [List.mem_flatMap]
    refine ⟨pos, ?_, ?_⟩
    · rw [List.mem_filter, List.mem_range]
      exact ⟨hpos, hbitpos⟩
    · rw [List.mem_map]
      exact ⟨d, hd, rfl⟩
  exact List.ne_nil_of_mem hmem

theorem clauseStep_ne_nil {nBits c : Nat} {D : List Nat}
    (hbit : hasBit nBits c) (hD : D ≠ []) : clauseStep nBits D c ≠ [] := by
  rw [clauseStep_eq_foldCands]
  obtain ⟨z, tl, heq⟩ := List.exists_cons_of_ne_nil (cands_ne_nil hbit hD)
  rw [heq, List.foldl_cons]
  exact foldl_insert_ne_nil tl _ (insertTerm_ne_nil [] z)

theorem clauseStepPruned_ne_nil {nBits c rem : Nat} {D : List Nat}
    (hn : nBits ≤ 64) (hbD : ∀ y ∈ D, y < 2 ^ nBits)
    (hbit : hasBit nBits c) (hD : D ≠ []) :
    clauseStepPruned .x64 nBits D c rem ≠ [] := by
  rw [clauseStepPruned_eq_foldCands]
  have hinv := fold_stInv2_of_ne_nil rem (cands nBits c D) ([], i32Max, 0)
    (cands_ne_nil hbit hD) (Or.inl ⟨rfl, rfl⟩) (cands_pc_lt hn hbD)
  obtain ⟨w, hw, _⟩ := hinv.2
  exact List.ne_nil_of_mem hw

theorem fullStages_ne_nil (nBits : Nat) :
    ∀ (cs : List Nat) (D : List Nat), (∀ e ∈ cs, hasBit nBits e) → D ≠ [] →
      cs.foldl (fun D disj => clauseStep nBits D disj) D ≠ [] := by
  intro cs
  induction cs with
  | nil => intro D _ h; exact h
  | cons e tl ih =>
    intro D hgood hD
    rw [List.foldl_cons]
    exact ih _ (fun x hx => hgood x (by simp [hx]))
      (clauseStep_ne_nil (hgood e (by simp)) hD)

theorem prunedStages_ne_nil (nBits : Nat) (hn : nBits ≤ 64) :
    ∀ (cs : List Nat) (D : List Nat), (∀ y ∈ D, y < 2 ^ nBits) →
      (∀ e ∈ cs, hasBit nBits e) → D ≠ [] →
      prunedStages nBits D cs ≠ [] := by
  intro cs
  induction cs with
  | nil => intro D _ _ h; exact h
  | cons e tl ih =>
    intro D hbD hgood hD
    show prunedStages nBits (clauseStepPruned .x64 nBits D e (tl.length + 1)) tl ≠ []
    exact ih _ (bounded_clauseStepPruned e (tl.length + 1) hbD)
      (fun x hx => hgood x (by simp [hx]))
      (clauseStepPruned_ne_nil hn hbD (hgood e (by simp)) hD)

theorem bounded_prunedStages (nBits : Nat) :
    ∀ (cs : List Nat) (D : List Nat), (∀ y ∈ D, y < 2 ^ nBits) →
      ∀ v ∈ prunedStages nBits D cs, v < 2 ^ nBits := by
  intro cs
  induction cs with
  | nil => intro D h; exact h
  | cons e tl ih =>
    intro D hbD
    exact ih _ (bounded_clauseStepPruned e (tl.length + 1) hbD)

/-- Main simultaneous induction: the `≤ θ` fragments of the full sweep and of
the pruning sweep agree through all remaining clauses, provided `θ` is at
most the minimum popcount reachable by the pruned run. -/
theorem main_frag (θ nBits : Nat) (hn : nBits ≤ 64) :
    ∀ (cs : List Nat) (D P : List Nat),
      (∀ e ∈ cs, hasBit nBits e) →
      (∀ v ∈ D, v < 2 ^ nBits) → (∀ v ∈ P, v < 2 ^ nBits) →
      lightFrag θ D = lightFrag θ P →
      (∀ s, hasPCLe (prunedStages nBits P cs) s → θ ≤ s) →
      lightFrag θ (cs.foldl (fun D disj => clauseStep nBits D disj) D) =
        lightFrag θ (prunedStages nBits P cs) := by
  intro cs
  induction cs with
  | nil => intro D P _ _ _ hfrag _; exact hfrag
  | cons e tl ih =>
    intro D P hgood hbD hbP hfrag hfin
    rw [List.foldl_cons]
    show _ = lightFrag θ (prunedStages nBits
      (clauseStepPruned .x64 nBits P e (tl.length + 1)) tl)
    have hgood' : ∀ x ∈ tl, hasBit nBits x := fun x hx => hgood x (by simp [hx])
    have hout : ∀ s, hasPCLe (clauseStepPruned .x64 nBits P e (tl.length + 1)) s →
        θ + 1 ≤ s + (tl.length + 1) := by
      intro s hs
      have hchain := prunedStages_hasPCLe nBits hn tl
        (clauseStepPruned .x64 nBits P e (tl.length + 1)) s
        (bounded_clauseStepPruned e (tl.length + 1) hbP) hgood' hs
      have := hfin (s + tl.length) hchain
      omega
    have hstep := clause_frag_eq θ nBits e (tl.length + 1) hfrag hn hbP hout
    exact ih (clauseStep nBits D e) (clauseStepPruned .x64 nBits P e (tl.length + 1))
      hgood'
      ((clauseStepOf_eq_of_fit (show OptimizedFor.x64 ≠ OptimizedFor.avx512_8bits by decide) hn hbD e).2)
      (bounded_clauseStepPruned e (tl.length + 1) hbP)
      hstep hfin

theorem bounded_fullStages (nBits : Nat) (hn : nBits ≤ 64) :
    ∀ (cs : List Nat) (D : List Nat), (∀ y ∈ D, y < 2 ^ nBits) →
      ∀ v ∈ cs.foldl (fun D disj => clauseStep nBits D disj) D, v < 2 ^ nBits := by
  intro cs
  induction cs with
  | nil => intro D h; exact h
  | cons e tl ih =>
    intro D hbD
    rw [List.foldl_cons]
    exact ih _ ((clauseStepOf_eq_of_fit (show OptimizedFor.x64 ≠ OptimizedFor.avx512_8bits by decide) hn hbD e).2)

theorem usizeMax_large : (64 : Nat) < usizeMax := by
  unfold usizeMax
  norm_num

/-- Core of claim C4: the minimum-popcount filter applied to the
early-pruning sweep and to the reference sweep produce the same list. -/
theorem minFilter_method1_eq_minFilter_impl (cnf : List Nat) (nBits : Nat)
    (hn : nBits ≤ 64) :
    minFilter (convert_cnf_to_dnf_minimal_private_method1 .x64 cnf nBits) =
      minFilter (convert_cnf_to_dnf_impl cnf nBits) := by
  match cnf with
  | [] => rfl
  | c :: rest =>
    rw [method1_eq_prunedStages, convert_impl_cons]
    by_cases hgood : ∀ e ∈ c :: rest, hasBit nBits e
    · have hbitc : hasBit nBits c := hgood c (by simp)
      have hgoodr : ∀ e ∈ rest, hasBit nBits e := fun e he =>
        hgood e (by simp [he])
      have hD1ne : firstClauseTerms nBits c ≠ [] := firstClauseTerms_ne_nil hbitc
      have hbD1 := bounded_firstClauseTerms nBits c
      have hRne : prunedStages nBits (firstClauseTerms nBits c) rest ≠ [] :=
        prunedStages_ne_nil nBits hn rest _ hbD1 hgoodr hD1ne
      have hbR : ∀ v ∈ prunedStages nBits (firstClauseTerms nBits c) rest,
          v < 2 ^ nBits := bounded_prunedStages nBits rest _ hbD1
      have hpcR : ∀ v ∈ prunedStages nBits (firstClauseTerms nBits c) rest,
          popCount v < usizeMax := by
        intro v hv
        have h1 := popCount_le_of_lt_two_pow nBits v (hbR v hv)
        have := usizeMax_large
        omega
      set θ := minPC (prunedStages nBits (firstClauseTerms nBits c) rest) with hθ
      have hfin : ∀ s, hasPCLe (prunedStages nBits (firstClauseTerms nBits c) rest) s →
          θ ≤ s := by
        intro s hs
        obtain ⟨w, hw, hpw⟩ := hs
        exact le_trans (minPC_le hw) hpw
      have hfrag := main_frag θ nBits hn rest (firstClauseTerms nBits c)
        (firstClauseTerms nBits c) hgoodr hbD1 hbD1 rfl hfin
      have hFne : rest.foldl (fun D disj => clauseStep nBits D disj)
          (firstClauseTerms nBits c) ≠ [] :=
        fullStages_ne_nil nBits rest _ hgoodr hD1ne
      have hbF := bounded_fullStages nBits hn rest (firstClauseTerms nBits c) hbD1
      have hpcF : ∀ v ∈ rest.foldl (fun D disj => clauseStep nBits D disj)
          (firstClauseTerms nBits c), popCount v < usizeMax := by
        intro v hv
        have h1 := popCount_le_of_lt_two_pow nBits v (hbF v hv)
        have := usizeMax_large
        omega
      obtain ⟨w, hwR, hpcw⟩ := minPC_mem hRne hpcR
      have hwF : w ∈ rest.foldl (fun D disj => clauseStep nBits D disj)
          (firstClauseTerms nBits c) := by
        have hmem : w ∈ lightFrag θ
            (prunedStages nBits (firstClauseTerms nBits c) rest) :=
          List.mem_filter.mpr ⟨hwR, by simp [hpcw, hθ]⟩
        rw [← hfrag] at hmem
        exact List.mem_of_mem_filter hmem
      have hminF_le : minPC (rest.foldl (fun D disj => clauseStep nBits D disj)
          (firstClauseTerms nBits c)) ≤ θ := by
        rw [← hθ] at hpcw
        rw [← hpcw]
        exact minPC_le hwF
      have hminF_ge : θ ≤ minPC (rest.foldl (fun D disj => clauseStep nBits D disj)
          (firstClauseTerms nBits c)) := by
        obtain ⟨u, huF, hpcu⟩ := minPC_mem hFne hpcF
        by_contra hlt
        push_neg at hlt
        have huFrag : u ∈ lightFrag θ (rest.foldl
            (fun D disj => clauseStep nBits D disj) (firstClauseTerms nBits c)) := by
          apply List.mem_filter.mpr
          refine ⟨huF, ?_⟩
          simp only [decide_eq_true_eq]
          omega
        rw [hfrag] at huFrag
        have huR := List.mem_of_mem_filter huFrag
        have := minPC_le huR
        omega
      have hminF : minPC (rest.foldl (fun D disj => clauseStep nBits D disj)
          (firstClauseTerms nBits c)) = θ := le_antisymm hminF_le hminF_ge
      rw [minFilter_eq_lightFrag hFne, minFilter_eq_lightFrag hRne,
        hminF, ← hθ]
      exact hfrag.symm
    · push_neg at hgood
      obtain ⟨e, he, hbad⟩ := hgood
      rcases List.mem_cons.mp he with rfl | he
      · rw [prunedStages_eq_nil nBits rest _
          (Or.inl (firstClauseTerms_eq_nil hbad)),
          fullStages_eq_nil nBits rest _
          (Or.inl (firstClauseTerms_eq_nil hbad))]
      · rw [prunedStages_eq_nil nBits rest _ (Or.inr ⟨e, he, hbad⟩),
          fullStages_eq_nil nBits rest _ (Or.inr ⟨e, he, hbad⟩)]

theorem pruneStep_of_eq {of : OptimizedFor} (h8 : of ≠ .avx512_8bits)
    {nBits : Nat} (hfit : nBits ≤ of.max_bits) {st : List Nat × Nat × Nat}
    {rem z : Nat} (hb : ∀ v ∈ st.1, v < 2 ^ nBits) (hz : z < 2 ^ nBits) :
    pruneStep of rem st z = pruneStep .x64 rem st z := by
  obtain ⟨L, s, m⟩ := st
  have hins : insertTermOf of L z = insertTerm L z :=
    insertTermOf_eq_of_fit h8 hfit hb hz
  unfold pruneStep
  by_cases h : popCount z < s <;> simp [h, hins, insertTermOf_x64]

theorem prunedFold_of_eq {of : OptimizedFor} (h8 : of ≠ .avx512_8bits)
    {nBits : Nat} (hfit : nBits ≤ of.max_bits) {rem : Nat} :
    ∀ (zs : List Nat) (st : List Nat × Nat × Nat),
      (∀ z ∈ zs, z < 2 ^ nBits) → (∀ v ∈ st.1, v < 2 ^ nBits) →
      zs.foldl (pruneStep of rem) st = zs.foldl (pruneStep .x64 rem) st := by
  intro zs
  induction zs with
  | nil => intro st _ _; rfl
  | cons z tl ih =>
    intro st hz hst
    have hz0 : z < 2 ^ nBits := hz z (by simp)
    have htl : ∀ q ∈ tl, q < 2 ^ nBits := fun q hq => hz q (by simp [hq])
    rw [List.foldl_cons, List.foldl_cons, pruneStep_of_eq h8 hfit hst hz0]
    exact ih _ htl (bounded_pruneStep hst hz0)

theorem clauseStepPruned_of_eq {of : OptimizedFor} (h8 : of ≠ .avx512_8bits)
    {nBits : Nat} (hfit : nBits ≤ of.max_bits) {D : List Nat}
    (hD : ∀ y ∈ D, y < 2 ^ nBits) (c rem : Nat) :
    clauseStepPruned of nBits D c rem = clauseStepPruned .x64 nBits D c rem := by
  rw [clauseStepPruned_eq_foldCands, clauseStepPruned_eq_foldCands,
    prunedFold_of_eq h8 hfit (cands nBits c D) ([], i32Max, 0) (cands_lt hD)
      (by intro v hv; simp at hv)]

theorem method1_of_eq {of : OptimizedFor} (h8 : of ≠ .avx512_8bits)
    {nBits : Nat} (hfit : nBits ≤ of.max_bits) (cnf : List Nat) :
    convert_cnf_to_dnf_minimal_private_method1 of cnf nBits =
      convert_cnf_to_dnf_minimal_private_method1 .x64 cnf nBits := by
  unfold convert_cnf_to_dnf_minimal_private_method1
  have main : ∀ (cs : List Nat) (st : List Nat × Nat),
      (∀ v ∈ st.1, v < 2 ^ nBits) →
      cs.foldl
        (fun st disj =>
          if st.2 = 0 then (firstClauseTerms nBits disj, st.2 + 1)
          else (clauseStepPruned of nBits st.1 disj (cnf.length - st.2),
            st.2 + 1)) st =
      cs.foldl
        (fun st disj =>
          if st.2 = 0 then (firstClauseTerms nBits disj, st.2 + 1)
          else (clauseStepPruned .x64 nBits st.1 disj (cnf.length - st.2),
            st.2 + 1)) st := by
    intro cs
    induction cs with
    | nil => intro st _; rfl
    | cons e tl ih =>
      intro st hst
      rw [List.foldl_cons, List.foldl_cons]
      by_cases h0 : st.2 = 0
      · rw [if_pos h0, if_pos h0]
        exact ih _ (bounded_firstClauseTerms nBits e)
      · rw [if_neg h0, if_neg h0,
          clauseStepPruned_of_eq h8 hfit hst e (cnf.length - st.2)]
        exact ih _ (bounded_clauseStepPruned e (cnf.length - st.2) hst)
  rw [main cnf ([], 0) (by intro v hv; simp at hv)]

/-- C4: for every concrete non-8-bit optimization level, every CNF, and every
`n_bits` accepted by an encoding (`max_vars ≤ 64`), `convert_cnf_to_dnf_minimal`
with `early_prune = true` returns the same list as with `early_prune = false`:
early pruning composed with the minimum-popcount filter equals the full sweep
composed with the same filter. -/
theorem convert_cnf_to_dnf_minimal_early_prune_agrees (maxVars : Nat)
    (of : OptimizedFor) (cnf : List Nat) (nBits : Nat)
    (h8 : of ≠ .avx512_8bits) (hauto : of ≠ .autoDetect)
    (h64 : maxVars ≤ 64) :
    convert_cnf_to_dnf_minimal maxVars of cnf nBits true =
      convert_cnf_to_dnf_minimal maxVars of cnf nBits false := by
  unfold convert_cnf_to_dnf_minimal
  by_cases h1 : maxVars < nBits
  · rw [if_pos h1, if_pos h1]
  rw [if_neg h1, if_neg h1]
  by_cases h2 : of ≠ .autoDetect ∧ of.max_bits < nBits
  · rw [if_pos h2, if_pos h2]
  rw [if_neg h2, if_neg h2]
  have hfit : nBits ≤ of.max_bits := by
    by_contra h
    exact h2 ⟨hauto, by omega⟩
  have hn : nBits ≤ 64 := by omega
  simp only [if_true, Bool.false_eq_true, if_false]
  rw [method1_of_eq h8 hfit cnf, (convert_cnf_to_dnf_implOf_eq h8 hfit cnf).1]
  exact minFilter_method1_eq_minFilter_impl cnf nBits hn

theorem convert_cnf_to_dnf_minimal_early_prune_agrees_witness :
    convert_cnf_to_dnf_minimal 16 .avx2_64bits [6, 24] 8 true =
      convert_cnf_to_dnf_minimal 16 .avx2_64bits [6, 24] 8 false :=
  convert_cnf_to_dnf_minimal_early_prune_agrees 16 .avx2_64bits [6, 24] 8
    (fun h => nomatch h) (fun h => nomatch h) (by decide)

end QmPetrick
